import Mathlib

/-!
Shallow embedding of `simulation_trafic.py` (traffic simulation on a grid) and
proofs of the specification claims about it.

Modelling conventions:
* grid coordinates are integers (Python tuples `(x, y)`), the grid itself is a
  list of rows of cell symbols, exactly as the Python list-of-lists of
  one-character strings;
* wall-clock timestamps (`time.time()` values) are rationals;
* Python dictionaries used as records become structures, dictionaries used as
  maps become functions into `Option`;
* the only sources of nondeterminism touching the claims (`random.shuffle` of
  the non-prioritised movers) are passed in as explicit parameters;
* the A* main loop is written with explicit fuel; a sufficient amount of fuel
  (so that the fuel never runs out, matching the always-terminating Python
  loop) is computed and proved below.
-/

set_option maxHeartbeats 1000000

namespace Circulation

/-- A grid position, Python tuple `(x, y)`. -/
abbrev Pos := Int × Int

/-- Symbol of a non-road cell. -/
def NON_ROUTIER : Char := 'N'
/-- Symbol of a passable road cell. -/
def ROUTE : Char := ' '
/-- Symbol of a manual obstacle. -/
def OBSTACLE_MANUEL : Char := 'X'
/-- Symbol of an automatic obstacle. -/
def OBSTACLE_AUTO_SYM : Char := 'A'
/-- The set of impassable symbols. -/
def SYMBOLES_NON_PRATICABLES : List Char := [NON_ROUTIER, OBSTACLE_MANUEL, OBSTACLE_AUTO_SYM]

/-- Base car speed (steps per second). -/
def VITESSE_VOITURE : ℚ := 3 / 2
/-- Minimal delay between two moves of one car, `1.0 / VITESSE_VOITURE`. -/
def DELAI_MIN_MOUVEMENT : ℚ := 1 / VITESSE_VOITURE
/-- Delay after which a car counts as possibly blocked (replan threshold). -/
def SEUIL_BLOCAGE : ℚ := 1
/-- Maximal number of simple replan failures before a car should look for a new
destination (constant from the source; see claim C1). -/
def MAX_RECALCUL_ECHECS : Nat := 6
/-- Delay after arrival before a car disappears. -/
def DELAI_DISPARITION_APRES_ARRIVEE : ℚ := 1
/-- Pedestrian crossing speed (fraction of the cell per tick), `0.02`. -/
def VITESSE_PIETON : ℚ := 1 / 50

/-- The grid: a list of rows of cell symbols (`grille[y][x]`). -/
abbrev Grille := List (List Char)

/-- `len(grille[0])`. -/
def tailleX (g : Grille) : Nat := (g.headD []).length
/-- `len(grille)`. -/
def tailleY (g : Grille) : Nat := g.length

/-- `0 <= x < taille_x and 0 <= y < taille_y`. -/
def dansLimites (g : Grille) (p : Pos) : Prop :=
  0 ≤ p.1 ∧ p.1 < (tailleX g : Int) ∧ 0 ≤ p.2 ∧ p.2 < (tailleY g : Int)

instance (g : Grille) (p : Pos) : Decidable (dansLimites g p) := by
  unfold dansLimites; infer_instance

/-- `grille[y][x]` (meaningful under `dansLimites`, which every caller in the
source checks before indexing). -/
def lireCase (g : Grille) (p : Pos) : Char :=
  (g.getD p.2.toNat []).getD p.1.toNat NON_ROUTIER

/-- `grille[y][x] = c`. -/
def ecrireCase (g : Grille) (p : Pos) (c : Char) : Grille :=
  g.set p.2.toNat ((g.getD p.2.toNat []).set p.1.toNat c)

/-- `est_case_escapable`: the cell is ROUTE and at least one orthogonal
neighbour is ROUTE.  (The source re-checks the bounds itself.) -/
def est_case_escapable (pos : Pos) (g : Grille) : Bool :=
  decide (dansLimites g pos) && decide (lireCase g pos = ROUTE) &&
    [((0 : Int), (1 : Int)), (0, -1), (1, 0), (-1, 0)].any fun d =>
      decide (dansLimites g (pos.1 + d.1, pos.2 + d.2)) &&
        decide (lireCase g (pos.1 + d.1, pos.2 + d.2) = ROUTE)

/-- A traffic light (Python dict with keys position/etat/durees/...). The
Python `etat` field is a string; it is kept as a string here so that the
closure of the three-phase set is a provable fact rather than a typing
artefact. -/
structure Feu where
  position : Pos
  etat : String
  duree_vert : ℚ
  duree_orange : ℚ
  duree_rouge : ℚ
  duree_actuelle : ℚ
  dernier_changement : ℚ
deriving DecidableEq

/-- Body of `mettre_a_jour_feux` for a single light. -/
def mettre_a_jour_feu (temps_actuel : ℚ) (feu : Feu) : Feu :=
  if temps_actuel - feu.dernier_changement > feu.duree_actuelle then
    if feu.etat = "vert" then
      { feu with etat := "orange", duree_actuelle := feu.duree_orange,
                 dernier_changement := temps_actuel }
    else if feu.etat = "orange" then
      { feu with etat := "rouge", duree_actuelle := feu.duree_rouge,
                 dernier_changement := temps_actuel }
    else if feu.etat = "rouge" then
      { feu with etat := "vert", duree_actuelle := feu.duree_vert,
                 dernier_changement := temps_actuel }
    else { feu with dernier_changement := temps_actuel }
  else feu

/-- `mettre_a_jour_feux`: update every light. -/
def mettre_a_jour_feux (temps_actuel : ℚ) (feux : List Feu) : List Feu :=
  feux.map (mettre_a_jour_feu temps_actuel)

/-- A pedestrian crossing (Python dict position/orientation). -/
structure Passage where
  position : Pos
  orientation : String
deriving DecidableEq

/-- An active pedestrian (Python dict id/passage_pos/orientation/progres). -/
structure Pieton where
  id : Nat
  passage_pos : Pos
  orientation : String
  progres : ℚ
deriving DecidableEq

/-- A car (Python dict; the rendering-only fields couleur/image are omitted). -/
structure Voiture where
  id : Nat
  position : Pos
  destination : Pos
  chemin : List Pos
  temps_arrivee : Option ℚ
  dernier_deplacement : ℚ
  orientation : Int
  bloquee_depuis : Option ℚ
  recalcul_echecs : Nat
deriving DecidableEq

/-- `voiture_presente_sur_passage` test of `mettre_a_jour_pietons`: some car
whose `temps_arrivee` is unset stands on the crossing cell. -/
def voiture_presente_sur_passage (pos : Pos) (voitures : List Voiture) : Bool :=
  voitures.any fun v => decide (v.position = pos ∧ v.temps_arrivee = none)

/-- The per-pedestrian advance of `mettre_a_jour_pietons`: progress increases
by `VITESSE_PIETON` unless an active car stands on the crossing cell. -/
def avancePieton (voitures : List Voiture) (p : Pieton) : Pieton :=
  if voiture_presente_sur_passage p.passage_pos voitures then p
  else { p with progres := p.progres + VITESSE_PIETON }

/-- Step 1 of `mettre_a_jour_pietons`: advance every pedestrian whose crossing
cell carries no active car, then keep exactly those with `progres < 1`. -/
def progression_pietons (pietons_actifs : List Pieton) (voitures : List Voiture) :
    List Pieton :=
  (pietons_actifs.map (avancePieton voitures)).filter fun p => decide (p.progres < 1)

/-- Spawn attempt at a chosen crossing: a new pedestrian appears only when
no pedestrian and no car (arrived or not) occupies the crossing cell. -/
def apparitionSurPassage (passage_choisi : Passage) (pietons : List Pieton)
    (voitures : List Voiture) (prochain_id : Nat) : List Pieton × Nat :=
  if (pietons.any fun p => decide (p.passage_pos = passage_choisi.position)) = false ∧
      (voitures.any fun v => decide (v.position = passage_choisi.position)) = false then
    (pietons ++ [{ id := prochain_id, passage_pos := passage_choisi.position,
                   orientation := passage_choisi.orientation, progres := 0 }],
     prochain_id + 1)
  else (pietons, prochain_id)

/-- Step 2 of `mettre_a_jour_pietons` (spawning).  The two random draws of the
source (`random.random() < proba` and `random.choice(passages_pietons)`) are
passed in as `tirage` and `choix`. -/
def apparition_pieton (passages : List Passage) (pietons : List Pieton)
    (voitures : List Voiture) (prochain_id : Nat) (tirage : Bool) (choix : Nat) :
    List Pieton × Nat :=
  if passages ≠ [] ∧ tirage = true then
    apparitionSurPassage (passages.getD (choix % passages.length) ⟨(0, 0), "horizontal"⟩)
      pietons voitures prochain_id
  else (pietons, prochain_id)

/-- `mettre_a_jour_pietons`: advance/remove, then possibly spawn. -/
def mettre_a_jour_pietons (passages : List Passage) (pietons_actifs : List Pieton)
    (voitures : List Voiture) (prochain_id : Nat) (tirage : Bool) (choix : Nat) :
    List Pieton × Nat :=
  apparition_pieton passages (progression_pietons pietons_actifs voitures) voitures
    prochain_id tirage choix

/-- `ajouter_obstacle_manuel`: write `X` if the cell is ROUTE, not a light
position and not an impassable symbol; return whether it succeeded together
with the (possibly unchanged) grid. -/
def ajouter_obstacle_manuel (g : Grille) (x y : Int) (feux : List Feu) :
    Bool × Grille :=
  if lireCase g (x, y) = ROUTE ∧ (∀ feu ∈ feux, feu.position ≠ (x, y)) ∧
      lireCase g (x, y) ∉ SYMBOLES_NON_PRATICABLES then
    (true, ecrireCase g (x, y) OBSTACLE_MANUEL)
  else (false, g)

/-- `ajouter_obstacle_auto`: same check, writes `A`. -/
def ajouter_obstacle_auto (g : Grille) (x y : Int) (feux : List Feu) :
    Bool × Grille :=
  if lireCase g (x, y) = ROUTE ∧ (∀ feu ∈ feux, feu.position ≠ (x, y)) ∧
      lireCase g (x, y) ∉ SYMBOLES_NON_PRATICABLES then
    (true, ecrireCase g (x, y) OBSTACLE_AUTO_SYM)
  else (false, g)

/-- Per-car body of `forcer_recalcul_si_affecte`: clear the path (and the
failure counter) of an active car, not standing on the obstacle cell, whose
path contains the cell or whose destination is the cell.  `bloquee_depuis` is
left untouched. -/
def forcerUn (x y : Int) (v : Voiture) : Voiture :=
  if v.temps_arrivee = none ∧ v.position ≠ (x, y) ∧
      ((x, y) ∈ v.chemin ∨ v.destination = (x, y)) then
    { v with chemin := [], recalcul_echecs := 0 }
  else v

/-- `forcer_recalcul_si_affecte`: apply `forcerUn` to every car. -/
def forcer_recalcul_si_affecte (x y : Int) (voitures : List Voiture) :
    List Voiture :=
  voitures.map (forcerUn x y)

/-- Manual-obstacle placement as performed by the main loop on a left click
inside the grid: add the obstacle and, on success, force the replans. -/
def placer_obstacle_manuel (g : Grille) (x y : Int) (feux : List Feu)
    (voitures : List Voiture) : Bool × Grille × List Voiture :=
  match ajouter_obstacle_manuel g x y feux with
  | (true, g') => (true, g', forcer_recalcul_si_affecte x y voitures)
  | (false, g') => (false, g', voitures)

/-- Automatic-obstacle placement as performed by the main loop timer. -/
def placer_obstacle_auto (g : Grille) (x y : Int) (feux : List Feu)
    (voitures : List Voiture) : Bool × Grille × List Voiture :=
  match ajouter_obstacle_auto g x y feux with
  | (true, g') => (true, g', forcer_recalcul_si_affecte x y voitures)
  | (false, g') => (false, g', voitures)

/-- Manual-obstacle removal as performed by the main loop on a right click:
the cell reverts to ROUTE; the car list is not touched at all. -/
def retirer_obstacle_manuel (g : Grille) (x y : Int) (voitures : List Voiture) :
    Grille × List Voiture :=
  if lireCase g (x, y) = OBSTACLE_MANUEL then (ecrireCase g (x, y) ROUTE, voitures)
  else (g, voitures)

/-- Automatic-obstacle removal as performed by the main loop timer (the random
choice among current `A` cells is passed in as `(x, y)`): the cell reverts to
ROUTE; the car list is not touched at all. -/
def retirer_obstacle_auto (g : Grille) (x y : Int) (voitures : List Voiture) :
    Grille × List Voiture :=
  (ecrireCase g (x, y) ROUTE, voitures)

/-! ### Pathfinding (`trouver_chemin`, A*) -/

/-- Manhattan-distance heuristic of `trouver_chemin`. -/
def heuristique (a b : Pos) : Nat := (a.1 - b.1).natAbs + (a.2 - b.2).natAbs

/-- The four orthogonal displacements, in source order. -/
def cardinal_directions : List (Int × Int) := [(0, 1), (0, -1), (1, 0), (-1, 0)]

/-- Direction-policy check of `trouver_chemin` for the move `d` out of the
cell `c`.  The row/column direction dictionaries are read with `.get`
semantics (`none` for a missing key). -/
def deplacement_autorise (dl dc : Int → Option String) (c : Pos) (d : Int × Int) :
    Bool :=
  if d.2 = 0 ∧ d.1 ≠ 0 then
    decide ((dl c.2 = some "droite" ∧ d.1 = 1) ∨ (dl c.2 = some "gauche" ∧ d.1 = -1))
  else if d.1 = 0 ∧ d.2 ≠ 0 then
    decide ((dc c.1 = some "bas" ∧ d.2 = 1) ∨ (dc c.1 = some "haut" ∧ d.2 = -1))
  else false

/-- A frontier entry `(f_cost, position)` of the A* open heap. -/
abbrev Entree := Nat × Pos

/-- The ordering of Python tuples `(priorite, (x, y))` used by `heapq`. -/
def entreeLe (e f : Entree) : Bool :=
  decide (e.1 < f.1 ∨ (e.1 = f.1 ∧
    (e.2.1 < f.2.1 ∨ (e.2.1 = f.2.1 ∧ e.2.2 ≤ f.2.2))))

/-- A minimal element of a nonempty entry list (what `heapq.heappop` returns:
distinct entries never compare equal, see `entreeLe`). -/
def minEntree : List Entree → Option Entree
  | [] => none
  | e :: es => some (es.foldl (fun m x => if entreeLe x m then x else m) e)

/-- Pop the minimal entry: return it with the rest of the heap. -/
def heapPop (l : List Entree) : Option (Entree × List Entree) :=
  match minEntree l with
  | none => none
  | some m => some (m, l.erase m)

/-- The mutable state of the A* loop: the open heap, the `cout_g` dictionary
and the `precedent` dictionary (whose `.get` returns `none` both for a missing
key and for the stored `None` of the start cell). -/
structure EtatAstar where
  ouverte : List Entree
  cout_g : Pos → Option Nat
  precedent : Pos → Option Pos

/-- Dictionary assignment `m[k] = v`. -/
def majDict {α : Type} (m : Pos → Option α) (k : Pos) (v : α) : Pos → Option α :=
  fun p => if p = k then some v else m p

/-- Neighbour relaxation of the A* loop body for one displacement `d`. -/
def pasVoisin (g : Grille) (dl dc : Int → Option String) (arrivee courant : Pos)
    (s : EtatAstar) (d : Int × Int) : EtatAstar :=
  let voisin : Pos := (courant.1 + d.1, courant.2 + d.2)
  if decide (dansLimites g voisin) && decide (lireCase g voisin = ROUTE) &&
      deplacement_autorise dl dc courant d then
    let n_cout_g := (s.cout_g courant).getD 0 + 1
    match s.cout_g voisin with
    | some ancien =>
        if n_cout_g < ancien then
          { ouverte := s.ouverte ++ [(n_cout_g + heuristique voisin arrivee, voisin)],
            cout_g := majDict s.cout_g voisin n_cout_g,
            precedent := majDict s.precedent voisin courant }
        else s
    | none =>
        { ouverte := s.ouverte ++ [(n_cout_g + heuristique voisin arrivee, voisin)],
          cout_g := majDict s.cout_g voisin n_cout_g,
          precedent := majDict s.precedent voisin courant }
  else s

/-- Expansion of the popped cell: relax the four orthogonal neighbours. -/
def etendre (g : Grille) (dl dc : Int → Option String) (arrivee courant : Pos)
    (s : EtatAstar) : EtatAstar :=
  cardinal_directions.foldl (pasVoisin g dl dc arrivee courant) s

/-- Path reconstruction, Python's
`while temp is not None: chemin.append(temp); temp = precedent.get(temp)`.
The fuel is an upper bound on the chain length; it is proved sufficient. -/
def reconstruire (prec : Pos → Option Pos) : Nat → Pos → List Pos
  | 0, _ => []
  | n + 1, p =>
      p :: (match prec p with
            | none => []
            | some q => reconstruire prec n q)

/-- Result of the A* main loop. -/
inductive ResA where
  | trouve (chemin : List Pos)
  | aucunChemin
  | carburantEpuise
deriving DecidableEq

/-- The A* main loop (`while ouverte:`), with explicit fuel. -/
def boucle (g : Grille) (dl dc : Int → Option String) (arrivee : Pos) :
    Nat → EtatAstar → ResA
  | 0, _ => ResA.carburantEpuise
  | fuel + 1, s =>
      match heapPop s.ouverte with
      | none => ResA.aucunChemin
      | some ((_, courant), reste) =>
          if courant = arrivee then
            ResA.trouve
              ((reconstruire s.precedent ((s.cout_g courant).getD 0 + 1) courant).reverse)
          else
            boucle g dl dc arrivee fuel
              (etendre g dl dc arrivee courant { s with ouverte := reste })

/-- Initial A* state: the start cell on the heap with its heuristic as
priority, `cout_g = {depart: 0}` and `precedent = {depart: None}`. -/
def etatInitial (depart arrivee : Pos) : EtatAstar :=
  { ouverte := [(heuristique depart arrivee, depart)],
    cout_g := fun p => if p = depart then some 0 else none,
    precedent := fun _ => none }

/-- `trouver_chemin`: guards on the endpoints, then A*.  Returns the full cell
sequence from start to goal inclusive, or `none`. -/
def trouver_chemin (fuel : Nat) (g : Grille) (depart arrivee : Pos)
    (dl dc : Int → Option String) : Option (List Pos) :=
  if ¬ (dansLimites g depart ∧ dansLimites g arrivee) then none
  else if lireCase g depart ≠ ROUTE ∨ lireCase g arrivee ≠ ROUTE then none
  else if depart = arrivee then some [depart]
  else
    match boucle g dl dc arrivee fuel (etatInitial depart arrivee) with
    | ResA.trouve l => some l
    | _ => none

/-! ### Car update (`mettre_a_jour_voitures`) -/

/-- `est_deplacement_valide`: the target is an in-bounds ROUTE cell, hosts no
non-green light and no pedestrian with `progres < 1`. -/
def est_deplacement_valide (pos : Pos) (feux : List Feu) (pietons : List Pieton)
    (g : Grille) : Bool :=
  decide (dansLimites g pos) && decide (lireCase g pos = ROUTE) &&
    (feux.all fun feu => decide (feu.position = pos → feu.etat = "vert")) &&
    (pietons.all fun p => decide (p.passage_pos = pos → 1 ≤ p.progres))

/-- Per-car arrival marking of phase 0: a car standing on its destination for
the first time gets its arrival timestamp, an empty path, and a cleared
blocked/failure state. -/
def marqueUn (t : ℚ) (v : Voiture) : Voiture :=
  if v.temps_arrivee = none ∧ v.position = v.destination then
    { v with temps_arrivee := some t, chemin := [], bloquee_depuis := none,
             recalcul_echecs := 0 }
  else v

/-- Phase 0 of `mettre_a_jour_voitures`: mark first-time arrivals, then keep
cars that are en route or recently arrived. -/
def marquer_arrivees (t : ℚ) (voitures : List Voiture) : List Voiture :=
  (voitures.map (marqueUn t)).filter
    fun v =>
      decide (v.temps_arrivee = none ∨
        ∀ ta ∈ v.temps_arrivee, t - ta < DELAI_DISPARITION_APRES_ARRIVEE)

/-- Phase 1 of `mettre_a_jour_voitures` for one car: replan when en route and
pathless or blocked past the threshold.  On success install the path without
its head and reset the blocked/failure state; on failure clear the path and
set `bloquee_depuis` if it was unset (the failure counter is never touched,
see claim C1). -/
def recalcul_un (fuel : Nat) (g : Grille) (dl dc : Int → Option String) (t : ℚ)
    (v : Voiture) : Voiture :=
  if v.temps_arrivee = none ∧
      (v.chemin = [] ∨ ∃ b ∈ v.bloquee_depuis, t - b > SEUIL_BLOCAGE) then
    match trouver_chemin fuel g v.position v.destination dl dc with
    | some p =>
        if 1 < p.length then
          { v with chemin := p.drop 1, bloquee_depuis := none, recalcul_echecs := 0 }
        else
          { v with chemin := [],
                   bloquee_depuis := if v.bloquee_depuis = none then some t
                                     else v.bloquee_depuis }
    | none =>
        { v with chemin := [],
                 bloquee_depuis := if v.bloquee_depuis = none then some t
                                   else v.bloquee_depuis }
  else v

/-- Phase 2 resolution loop: walk the ordered eligible cars; approve a car's
next step when the target cell is not yet reserved and passes
`est_deplacement_valide`; reserving approved targets as it goes.  Returns the
approved moves keyed by car id (newest first, matching the dictionary
overwrite semantics of the source). -/
def resoudre (feux : List Feu) (pietons : List Pieton) (g : Grille) :
    List Pos → List (Nat × Pos) → List Voiture → List (Nat × Pos)
  | _, app, [] => app
  | proj, app, v :: rest =>
      match v.chemin with
      | [] => resoudre feux pietons g proj app rest
      | next :: _ =>
          if next ∉ proj ∧ est_deplacement_valide next feux pietons g = true then
            resoudre feux pietons g (next :: proj) ((v.id, next) :: app) rest
          else resoudre feux pietons g proj app rest

/-- Orientation derived from the displacement of an approved move. -/
def nouvelle_orientation (dx dy : Int) (ancienne : Int) : Int :=
  if dx = 1 ∧ dy = 0 then 0
  else if dx = -1 ∧ dy = 0 then 180
  else if dx = 0 ∧ dy = 1 then 270
  else if dx = 0 ∧ dy = -1 then 90
  else ancienne

/-- Phase 3 of `mettre_a_jour_voitures`: apply the approved moves (position,
orientation, consumed path cell, move timestamp; `bloquee_depuis` was cleared
by the resolution phase on the same car record — the net effect is merged
here). -/
def appliqueUn (t : ℚ) (approuves : List (Nat × Pos)) (v : Voiture) : Voiture :=
  match approuves.lookup v.id with
  | some np =>
      { v with
        position := np,
        orientation := nouvelle_orientation (np.1 - v.position.1)
          (np.2 - v.position.2) v.orientation,
        chemin := if v.chemin.head? = some np then v.chemin.tail else v.chemin,
        dernier_deplacement := t,
        bloquee_depuis := none }
  | none => v

/-- Phase 3 of `mettre_a_jour_voitures`: apply the approved moves to every
car. -/
def appliquer_mouvements (t : ℚ) (approuves : List (Nat × Pos))
    (voitures : List Voiture) : List Voiture :=
  voitures.map (appliqueUn t approuves)

/-- Comparison used to sort the previously-blocked movers by ascending
`bloquee_depuis` (all of them carry a timestamp). -/
def parBlocage (a b : Voiture) : Bool :=
  decide (a.bloquee_depuis.getD 0 ≤ b.bloquee_depuis.getD 0)

/-- Phases 0 and 1 of `mettre_a_jour_voitures`: arrivals marked and filtered,
then every car put through the replan step. -/
def voituresRecalculees (fuel : Nat) (g : Grille) (dl dc : Int → Option String)
    (t : ℚ) (voitures : List Voiture) : List Voiture :=
  (marquer_arrivees t voitures).map (recalcul_un fuel g dl dc t)

/-- The cars still en route after phases 0 and 1 (their current positions form
the initial reservation set of the resolution phase). -/
def voituresEnRoute (fuel : Nat) (g : Grille) (dl dc : Int → Option String)
    (t : ℚ) (voitures : List Voiture) : List Voiture :=
  (voituresRecalculees fuel g dl dc t voitures).filter
    fun v => decide (v.temps_arrivee = none)

/-- The movement-eligible cars: en route, with a path, and past the minimum
move interval. -/
def voituresEligibles (fuel : Nat) (g : Grille) (dl dc : Int → Option String)
    (t : ℚ) (voitures : List Voiture) : List Voiture :=
  (voituresEnRoute fuel g dl dc t voitures).filter
    fun v => decide (v.chemin ≠ [] ∧
      DELAI_MIN_MOUVEMENT ≤ t - v.dernier_deplacement)

/-- The processing order of the resolution phase: movement-eligible cars, the
previously blocked ones first (sorted by ascending `bloquee_depuis`), then the
rest in the shuffle order `melange`. -/
def ordreResolution (fuel : Nat) (melange : List Voiture → List Voiture)
    (g : Grille) (dl dc : Int → Option String) (t : ℚ)
    (voitures : List Voiture) : List Voiture :=
  (((voituresEligibles fuel g dl dc t voitures).filter
      (fun v => decide (v.bloquee_depuis ≠ none))).mergeSort parBlocage) ++
    melange ((voituresEligibles fuel g dl dc t voitures).filter
      (fun v => decide (v.bloquee_depuis = none)))

/-- Phases 0–2 of `mettre_a_jour_voitures` up to the approved-move set.
`melange` stands for `random.shuffle` on the non-prioritised movers. -/
def mouvements_approuves (fuel : Nat) (melange : List Voiture → List Voiture)
    (t : ℚ) (voitures : List Voiture) (g : Grille) (feux : List Feu)
    (dl dc : Int → Option String) (pietons : List Pieton) : List (Nat × Pos) :=
  resoudre feux pietons g
    ((voituresEnRoute fuel g dl dc t voitures).map (·.position)) []
    (ordreResolution fuel melange g dl dc t voitures)

/-- `mettre_a_jour_voitures`: the whole per-tick car update. -/
def mettre_a_jour_voitures (fuel : Nat) (melange : List Voiture → List Voiture)
    (t : ℚ) (voitures : List Voiture) (g : Grille) (feux : List Feu)
    (dl dc : Int → Option String) (pietons : List Pieton) : List Voiture :=
  appliquer_mouvements t
    (mouvements_approuves fuel melange t voitures g feux dl dc pietons)
    (voituresRecalculees fuel g dl dc t voitures)

/-! ### Specification-side definitions

These follow the wording of the specification (not the code); they are only
used on the specification side of the refinement statements for the planner
claims. -/

/-- Rectangularity of a grid (all constructed grids are rectangular; the
Python code indexes rows under the width of row 0). -/
def EstRectangulaire (g : Grille) : Prop := ∀ row ∈ g, row.length = tailleX g

instance (g : Grille) : Decidable (EstRectangulaire g) := by
  unfold EstRectangulaire; infer_instance

/-- Spec side: a Road cell of the grid. -/
def CaseRoute (g : Grille) (p : Pos) : Prop :=
  dansLimites g p ∧ lireCase g p = ROUTE

/-- Spec side: one legal orthogonal unit move under the directional policy
("mapping row to forward/backward and column to forward/backward"; diagonals
never allowed). -/
def PasLegalSpec (dl dc : Int → Option String) (a b : Pos) : Prop :=
  (b.2 = a.2 ∧ ((b.1 = a.1 + 1 ∧ dl a.2 = some "droite") ∨
                (b.1 = a.1 - 1 ∧ dl a.2 = some "gauche"))) ∨
  (b.1 = a.1 ∧ ((b.2 = a.2 + 1 ∧ dc a.1 = some "bas") ∨
                (b.2 = a.2 - 1 ∧ dc a.1 = some "haut")))

/-- Spec side: a route — a nonempty sequence of Road cells linked by legal
orthogonal unit moves. -/
def RouteSpec (g : Grille) (dl dc : Int → Option String) (l : List Pos) : Prop :=
  l ≠ [] ∧ (∀ p ∈ l, CaseRoute g p) ∧ l.Chain' (PasLegalSpec dl dc)

/-- Spec side: a route from `a` to `b`. -/
def RouteSpecEntre (g : Grille) (dl dc : Int → Option String) (a b : Pos)
    (l : List Pos) : Prop :=
  RouteSpec g dl dc l ∧ l.head? = some a ∧ l.getLast? = some b

/-! ### A* proof apparatus (code-side walk relation and termination measure) -/

/-- The edge relation explored by the A* loop: `v` is one of the four
orthogonal neighbours of `c`, in bounds, a ROUTE cell, and the move obeys the
direction policy. -/
def Arete (g : Grille) (dl dc : Int → Option String) (c v : Pos) : Prop :=
  ∃ d ∈ cardinal_directions, v = (c.1 + d.1, c.2 + d.2) ∧ dansLimites g v ∧
    lireCase g v = ROUTE ∧ deplacement_autorise dl dc c d = true

/-- A walk of exactly `n` edges from `a` to `b` along `Arete`. -/
def AtteintEn (g : Grille) (dl dc : Int → Option String) (a b : Pos) (n : Nat) :
    Prop :=
  ∃ l, List.Chain (Arete g dl dc) a l ∧ l.length = n ∧ (a :: l).getLast? = some b

/-- All in-bounds positions of the grid, as a finset (for the termination
measure and the pigeonhole bound on shortest walks). -/
def cellules (g : Grille) : Finset Pos :=
  (Finset.range (tailleX g) ×ˢ Finset.range (tailleY g)).image
    fun q => ((q.1 : Int), (q.2 : Int))

/-- Strict upper bound on every `cout_g` value the loop can store. -/
def borneCout (g : Grille) : Nat := tailleX g * tailleY g + 1

/-- Weight of one `cout_g` slot in the termination measure. -/
def poidsCout (g : Grille) : Option Nat → Nat
  | none => borneCout g
  | some v => v

/-- Sum of slot weights over the grid. -/
def sommeCouts (g : Grille) (cg : Pos → Option Nat) : Nat :=
  ∑ p ∈ cellules g, poidsCout g (cg p)

/-- Termination measure of the A* loop: strictly decreases at each iteration. -/
def phiMesure (g : Grille) (s : EtatAstar) : Nat :=
  2 * sommeCouts g s.cout_g + s.ouverte.length

/-- Fuel that provably suffices for the A* loop on grid `g`. -/
def fuelSuffisant (g : Grille) : Nat :=
  2 * (tailleX g * tailleY g) * (tailleX g * tailleY g + 1) + 2

/-- The A* loop invariant, parametrised by a set `ex` of cells temporarily
exempt from the relaxation obligation (the freshly popped cell, until all its
neighbours have been relaxed).

* `depart_zero` / `prec_depart`: the start cell keeps cost 0 and no parent;
* `marche`: every stored cost is the length of an actual walk from the start;
* `ouverte_bornee`: every open entry's priority dominates the current stored
  cost of its cell plus the heuristic;
* `relax`: every costed cell (outside `ex`) either still has a fresh open
  entry or has all its out-edges relaxed;
* `prec_arete`: parent pointers follow real edges with strictly smaller cost;
* `inb`: only in-bounds cells are ever costed;
* `arr_ouverte`: while the loop is still running, a costed goal cell keeps an
  open entry (popping the goal ends the loop). -/
structure Inva (g : Grille) (dl dc : Int → Option String) (depart arrivee : Pos)
    (ex : Pos → Prop) (s : EtatAstar) : Prop where
  depart_zero : s.cout_g depart = some 0
  prec_depart : s.precedent depart = none
  marche : ∀ p v, s.cout_g p = some v → AtteintEn g dl dc depart p v
  ouverte_bornee : ∀ e ∈ s.ouverte, ∃ v, s.cout_g e.2 = some v ∧
    v + heuristique e.2 arrivee ≤ e.1
  relax : ∀ p v, s.cout_g p = some v → ¬ ex p →
    (∃ e ∈ s.ouverte, e.2 = p ∧ e.1 ≤ v + heuristique p arrivee) ∨
    (∀ q, Arete g dl dc p q → ∃ w, s.cout_g q = some w ∧ w ≤ v + 1)
  prec_arete : ∀ p v, s.cout_g p = some v → p ≠ depart →
    ∃ q w, s.precedent p = some q ∧ Arete g dl dc q p ∧ s.cout_g q = some w ∧ w < v
  inb : ∀ p, (s.cout_g p).isSome = true → dansLimites g p
  arr_ouverte : ∀ v, s.cout_g arrivee = some v → ∃ e ∈ s.ouverte, e.2 = arrivee

/-- Successor phase of a traffic light, in the cyclic order of the source. -/
def phaseSuivante (e : String) : String :=
  if e = "vert" then "orange" else if e = "orange" then "rouge" else "vert"

/-- The configured duration of a given phase of a light. -/
def dureeDePhase (feu : Feu) (e : String) : ℚ :=
  if e = "vert" then feu.duree_vert
  else if e = "orange" then feu.duree_orange
  else feu.duree_rouge

/-! ### Concrete fixtures (used by witnesses and counterexamples) -/

/-- The 5×5 cross grid of the specification's example scenario: Road on every
cell of row 2 and column 2. -/
def grilleEssai : Grille :=
  [[NON_ROUTIER, NON_ROUTIER, ROUTE, NON_ROUTIER, NON_ROUTIER],
   [NON_ROUTIER, NON_ROUTIER, ROUTE, NON_ROUTIER, NON_ROUTIER],
   [ROUTE, ROUTE, ROUTE, ROUTE, ROUTE],
   [NON_ROUTIER, NON_ROUTIER, ROUTE, NON_ROUTIER, NON_ROUTIER],
   [NON_ROUTIER, NON_ROUTIER, ROUTE, NON_ROUTIER, NON_ROUTIER]]

/-- Row directions of the fixture: even rows rightward, odd rows leftward. -/
def dlEssai : Int → Option String := fun y =>
  if 0 ≤ y ∧ y < 5 then (if y % 2 = 0 then some "droite" else some "gauche")
  else none

/-- Column directions of the fixture: even columns down, odd columns up. -/
def dcEssai : Int → Option String := fun x =>
  if 0 ≤ x ∧ x < 5 then (if x % 2 = 0 then some "bas" else some "haut") else none

/-- A fixture car at `(0, 2)` bound for `(2, 4)`. -/
def voitureEssai : Voiture :=
  { id := 1, position := (0, 2), destination := (2, 4), chemin := [],
    temps_arrivee := none, dernier_deplacement := 0, orientation := 0,
    bloquee_depuis := none, recalcul_echecs := 0 }

/-- The fixture grid with a manual obstacle on the connector cell `(2, 2)`. -/
def grilleObstruee : Grille := (ajouter_obstacle_manuel grilleEssai 2 2 []).2

/-- A two-cell grid whose second cell carries a manual obstacle. -/
def grilleDeuxCases : Grille := [[ROUTE, OBSTACLE_MANUEL]]

/-- A car whose stored path crosses the obstacle cell of `grilleDeuxCases`. -/
def voitureAffectee : Voiture :=
  { id := 3, position := (0, 0), destination := (1, 0), chemin := [(1, 0)],
    temps_arrivee := none, dernier_deplacement := 0, orientation := 0,
    bloquee_depuis := none, recalcul_echecs := 0 }

/-- A fixture pedestrian halfway across the crossing at `(1, 2)`. -/
def pietonEssai : Pieton :=
  { id := 0, passage_pos := (1, 2), orientation := "horizontal", progres := 1 / 2 }

/-- A fixture car that has arrived (grace period) and stands on `(1, 2)`. -/
def voitureArriveeEssai : Voiture :=
  { id := 2, position := (1, 2), destination := (1, 2), chemin := [],
    temps_arrivee := some 5, dernier_deplacement := 0, orientation := 0,
    bloquee_depuis := none, recalcul_echecs := 0 }

/-- A fixture light on the connector cell, in its red phase. -/
def feuEssai : Feu :=
  { position := (2, 2), etat := "rouge", duree_vert := 10, duree_orange := 3,
    duree_rouge := 7, duree_actuelle := 7, dernier_changement := 0 }


/-! ## Theorems -/

/-! ### Grid access helper lemmas -/

theorem toNat_lt_tailleY (g : Grille) (p : Pos) (h : dansLimites g p) :
    p.2.toNat < g.length := by
  obtain ⟨_, _, h3, h4⟩ := h
  unfold tailleY at h4
  omega

theorem toNat_lt_rangee (g : Grille) (p : Pos) (hrect : EstRectangulaire g)
    (h : dansLimites g p) : p.1.toNat < (g.getD p.2.toNat []).length := by
  obtain ⟨h1, h2, h3, h4⟩ := h
  have hy := toNat_lt_tailleY g p ⟨h1, h2, h3, h4⟩
  have hmem : g.getD p.2.toNat [] ∈ g := by
    rw [List.getD_eq_getElem?_getD, List.getElem?_eq_getElem hy]
    exact List.getElem_mem hy
  rw [hrect _ hmem]
  omega

theorem lireCase_ecrireCase (g : Grille) (p : Pos) (c : Char)
    (hrect : EstRectangulaire g) (h : dansLimites g p) :
    lireCase (ecrireCase g p c) p = c := by
  have hy := toNat_lt_tailleY g p h
  have hx := toNat_lt_rangee g p hrect h
  unfold lireCase ecrireCase
  simp only [List.getD_eq_getElem?_getD] at hx ⊢
  rw [List.getElem?_set_self hy, Option.getD_some, List.getElem?_set_self hx,
    Option.getD_some]

/-! ### C6 -/

/-- C6: `ajouter_obstacle_manuel` and `ajouter_obstacle_auto` succeed (return
`true` and write the obstacle symbol at `(x, y)`) iff the cell is currently
Road, is not a traffic-light position, and is not already an obstacle; in
every failure case they return `false` and leave the grid unchanged. -/
theorem obstacles_placement_ssi (g : Grille) (x y : Int) (feux : List Feu)
    (hrect : EstRectangulaire g) (h : dansLimites g (x, y)) :
    ((ajouter_obstacle_manuel g x y feux).1 = true ↔
      (lireCase g (x, y) = ROUTE ∧ (∀ feu ∈ feux, feu.position ≠ (x, y)) ∧
        lireCase g (x, y) ≠ OBSTACLE_MANUEL ∧ lireCase g (x, y) ≠ OBSTACLE_AUTO_SYM)) ∧
    ((ajouter_obstacle_manuel g x y feux).1 = true →
      lireCase (ajouter_obstacle_manuel g x y feux).2 (x, y) = OBSTACLE_MANUEL) ∧
    ((ajouter_obstacle_manuel g x y feux).1 = false →
      (ajouter_obstacle_manuel g x y feux).2 = g) ∧
    ((ajouter_obstacle_auto g x y feux).1 = true ↔
      (lireCase g (x, y) = ROUTE ∧ (∀ feu ∈ feux, feu.position ≠ (x, y)) ∧
        lireCase g (x, y) ≠ OBSTACLE_MANUEL ∧ lireCase g (x, y) ≠ OBSTACLE_AUTO_SYM)) ∧
    ((ajouter_obstacle_auto g x y feux).1 = true →
      lireCase (ajouter_obstacle_auto g x y feux).2 (x, y) = OBSTACLE_AUTO_SYM) ∧
    ((ajouter_obstacle_auto g x y feux).1 = false →
      (ajouter_obstacle_auto g x y feux).2 = g) := by
  unfold ajouter_obstacle_manuel ajouter_obstacle_auto
  split
  case isTrue hc =>
    obtain ⟨hroute, hfeux, _⟩ := hc
    refine ⟨?_, ?_, ?_, ?_, ?_, ?_⟩
    · constructor
      · intro _
        refine ⟨hroute, hfeux, ?_, ?_⟩ <;> rw [hroute] <;> decide
      · intro _; rfl
    · intro _; exact lireCase_ecrireCase g (x, y) OBSTACLE_MANUEL hrect h
    · intro hfalse; cases hfalse
    · constructor
      · intro _
        refine ⟨hroute, hfeux, ?_, ?_⟩ <;> rw [hroute] <;> decide
      · intro _; rfl
    · intro _; exact lireCase_ecrireCase g (x, y) OBSTACLE_AUTO_SYM hrect h
    · intro hfalse; cases hfalse
  case isFalse hc =>
    refine ⟨?_, ?_, ?_, ?_, ?_, ?_⟩
    · constructor
      · intro hfalse; cases hfalse
      · intro ⟨hroute, hfeux, _, _⟩
        exfalso
        refine hc ⟨hroute, hfeux, ?_⟩
        rw [hroute]; decide
    · intro hfalse; cases hfalse
    · intro _; rfl
    · constructor
      · intro hfalse; cases hfalse
      · intro ⟨hroute, hfeux, _, _⟩
        exfalso
        refine hc ⟨hroute, hfeux, ?_⟩
        rw [hroute]; decide
    · intro hfalse; cases hfalse
    · intro _; rfl

/-- Witness for C6 on the fixture grid. -/
theorem obstacles_placement_ssi_temoin :
    EstRectangulaire grilleEssai ∧ dansLimites grilleEssai (2, 2) ∧
      ((ajouter_obstacle_manuel grilleEssai 2 2 []).1 = true ↔
        (lireCase grilleEssai (2, 2) = ROUTE ∧
          (∀ feu ∈ ([] : List Feu), feu.position ≠ ((2 : Int), (2 : Int))) ∧
          lireCase grilleEssai (2, 2) ≠ OBSTACLE_MANUEL ∧
          lireCase grilleEssai (2, 2) ≠ OBSTACLE_AUTO_SYM)) ∧
      ((ajouter_obstacle_manuel grilleEssai 2 2 []).1 = true →
        lireCase (ajouter_obstacle_manuel grilleEssai 2 2 []).2 (2, 2) =
          OBSTACLE_MANUEL) := by
  have h := obstacles_placement_ssi grilleEssai 2 2 [] (by decide) (by decide)
  exact ⟨by decide, by decide, h.1, h.2.1⟩

/-! ### C7 -/

/-- C7: a light's phase always stays in the set {vert, orange, rouge};
transitions follow only the cyclic order vert → orange → rouge → vert, happen
exactly when the elapsed time since the last phase change exceeds the current
phase duration, perform at most one step per update call (the update is a
single application of `phaseSuivante`), and reset the last-change timestamp to
the update time while installing the configured duration of the new phase;
`mettre_a_jour_feux` applies this to every light independently. -/
theorem feux_machine_etats (t : ℚ) (feux : List Feu) (feu : Feu)
    (htrois : feu.etat = "vert" ∨ feu.etat = "orange" ∨ feu.etat = "rouge") :
    mettre_a_jour_feux t feux = feux.map (mettre_a_jour_feu t) ∧
    ((mettre_a_jour_feu t feu).etat = "vert" ∨
      (mettre_a_jour_feu t feu).etat = "orange" ∨
      (mettre_a_jour_feu t feu).etat = "rouge") ∧
    ((mettre_a_jour_feu t feu).etat = feu.etat ∨
      (mettre_a_jour_feu t feu).etat = phaseSuivante feu.etat) ∧
    ((mettre_a_jour_feu t feu).etat ≠ feu.etat ↔
      t - feu.dernier_changement > feu.duree_actuelle) ∧
    (t - feu.dernier_changement > feu.duree_actuelle →
      (mettre_a_jour_feu t feu).etat = phaseSuivante feu.etat ∧
      (mettre_a_jour_feu t feu).dernier_changement = t ∧
      (mettre_a_jour_feu t feu).duree_actuelle =
        dureeDePhase feu (phaseSuivante feu.etat) ∧
      (mettre_a_jour_feu t feu).position = feu.position) ∧
    (¬ t - feu.dernier_changement > feu.duree_actuelle →
      mettre_a_jour_feu t feu = feu) := by
  refine ⟨rfl, ?_⟩
  by_cases hc : t - feu.dernier_changement > feu.duree_actuelle
  · rcases htrois with hv | hv | hv <;>
      simp [mettre_a_jour_feu, hc, hv, phaseSuivante, dureeDePhase]
  · have hfix : mettre_a_jour_feu t feu = feu := by
      unfold mettre_a_jour_feu
      rw [if_neg hc]
    rw [hfix]
    refine ⟨htrois, Or.inl rfl, ?_, ?_, fun _ => rfl⟩
    · constructor
      · intro hne; exact absurd rfl hne
      · intro hgt; exact absurd hgt hc
    · intro hgt; exact absurd hgt hc

/-- Witness for C7 on the fixture light. -/
theorem feux_machine_etats_temoin :
    (feuEssai.etat = "vert" ∨ feuEssai.etat = "orange" ∨ feuEssai.etat = "rouge") ∧
      ((mettre_a_jour_feu 11 feuEssai).etat = feuEssai.etat ∨
        (mettre_a_jour_feu 11 feuEssai).etat = phaseSuivante feuEssai.etat) := by
  have h := feux_machine_etats 11 [feuEssai] feuEssai (by decide)
  exact ⟨by decide, h.2.2.1⟩

/-! ### C1 -/

theorem recalcul_un_champs (fuel : Nat) (g : Grille) (dl dc : Int → Option String)
    (t : ℚ) (v : Voiture) :
    (recalcul_un fuel g dl dc t v).id = v.id ∧
    (recalcul_un fuel g dl dc t v).destination = v.destination ∧
    (recalcul_un fuel g dl dc t v).position = v.position ∧
    (recalcul_un fuel g dl dc t v).temps_arrivee = v.temps_arrivee ∧
    ((recalcul_un fuel g dl dc t v).recalcul_echecs = 0 ∨
      (recalcul_un fuel g dl dc t v).recalcul_echecs = v.recalcul_echecs) := by
  unfold recalcul_un
  split
  · split
    · split
      · exact ⟨rfl, rfl, rfl, rfl, Or.inl rfl⟩
      · exact ⟨rfl, rfl, rfl, rfl, Or.inr rfl⟩
    · exact ⟨rfl, rfl, rfl, rfl, Or.inr rfl⟩
  · exact ⟨rfl, rfl, rfl, rfl, Or.inr rfl⟩

theorem marquer_arrivees_membres (t : ℚ) (voitures : List Voiture) :
    ∀ w ∈ marquer_arrivees t voitures, ∃ v ∈ voitures,
      w.id = v.id ∧ w.destination = v.destination ∧ w.position = v.position ∧
      (w.recalcul_echecs = 0 ∨ w.recalcul_echecs = v.recalcul_echecs) ∧
      (w.temps_arrivee = none → v.temps_arrivee = none) := by
  intro w hw
  unfold marquer_arrivees at hw
  obtain ⟨hw, -⟩ := List.mem_filter.mp hw
  obtain ⟨v, hv, him⟩ := List.mem_map.mp hw
  refine ⟨v, hv, ?_⟩
  unfold marqueUn at him
  by_cases hc : v.temps_arrivee = none ∧ v.position = v.destination
  · rw [if_pos hc] at him
    subst him
    exact ⟨rfl, rfl, rfl, Or.inl rfl, by intro h; cases h⟩
  · rw [if_neg hc] at him
    subst him
    exact ⟨rfl, rfl, rfl, Or.inr rfl, fun h => h⟩

theorem appliquer_mouvements_membres (t : ℚ) (app : List (Nat × Pos))
    (voitures : List Voiture) :
    ∀ w ∈ appliquer_mouvements t app voitures, ∃ v ∈ voitures,
      w.id = v.id ∧ w.destination = v.destination ∧
      w.recalcul_echecs = v.recalcul_echecs ∧ w.temps_arrivee = v.temps_arrivee ∧
      (w.position = v.position ∨ app.lookup v.id = some w.position) := by
  intro w hw
  unfold appliquer_mouvements at hw
  obtain ⟨v, hv, him⟩ := List.mem_map.mp hw
  refine ⟨v, hv, ?_⟩
  unfold appliqueUn at him
  cases hl : app.lookup v.id with
  | none =>
      rw [hl] at him
      dsimp only at him
      subst him
      exact ⟨rfl, rfl, rfl, rfl, Or.inl rfl⟩
  | some np =>
      rw [hl] at him
      dsimp only at him
      subst him
      exact ⟨rfl, rfl, rfl, rfl, Or.inr rfl⟩

/-- C1: the deadlock-escalation machinery of the claim is dead code.  The
failure counter of a car is never incremented by `mettre_a_jour_voitures`
(only ever reset to 0), and a car's destination is never replaced
(`trouver_nouvelle_destination_valide` is never invoked): starting from cars
whose counter is zero (the value every generated car starts with), the counter
stays zero after the update — for any shuffle, time, grid, lights, pedestrians
and planner fuel — so it can never exceed `MAX_RECALCUL_ECHECS = 6` and the
claimed destination-reassignment escalation is unreachable. -/
theorem recalcul_echecs_jamais_incremente (fuel : Nat)
    (melange : List Voiture → List Voiture) (t : ℚ) (voitures : List Voiture)
    (g : Grille) (feux : List Feu) (dl dc : Int → Option String)
    (pietons : List Pieton) (hzero : ∀ v ∈ voitures, v.recalcul_echecs = 0) :
    ∀ w ∈ mettre_a_jour_voitures fuel melange t voitures g feux dl dc pietons,
      w.recalcul_echecs = 0 ∧ ∃ v ∈ voitures, v.id = w.id ∧
        w.destination = v.destination := by
  intro w hw
  unfold mettre_a_jour_voitures at hw
  obtain ⟨v2, hv2, hid, hdest, hech, -, -⟩ :=
    appliquer_mouvements_membres _ _ _ w hw
  obtain ⟨v1, hv1, him⟩ := List.mem_map.mp hv2
  obtain ⟨ridv, rdest, -, -, rech⟩ := recalcul_un_champs fuel g dl dc t v1
  obtain ⟨v0, hv0, mid, mdest, -, mech, -⟩ := marquer_arrivees_membres t voitures v1 hv1
  constructor
  · rw [hech, ← him]
    rcases rech with h | h
    · exact h
    · rw [h]
      rcases mech with h' | h'
      · exact h'
      · rw [h']
        exact hzero v0 hv0
  · refine ⟨v0, hv0, ?_, ?_⟩
    · rw [hid, ← him, ridv, mid]
    · rw [hdest, ← him, rdest, mdest]

/-- Witness for C1: the fixture car's destination is cut off by the obstacle
(its replan fails), yet the theorem applies: after the update every car's
failure counter is still 0 and its destination unchanged. -/
theorem recalcul_echecs_jamais_incremente_temoin :
    (∀ v ∈ [voitureEssai], v.recalcul_echecs = 0) ∧
      (∀ w ∈ mettre_a_jour_voitures 200 id 10 [voitureEssai] grilleObstruee []
          dlEssai dcEssai [],
        w.recalcul_echecs = 0 ∧ ∃ v ∈ [voitureEssai], v.id = w.id ∧
          w.destination = v.destination) :=
  ⟨by decide,
   recalcul_echecs_jamais_incremente 200 id 10 [voitureEssai] grilleObstruee []
     dlEssai dcEssai [] (by decide)⟩

/-! ### C5 -/

/-- C5 counterexample: removing the manual obstacle of the two-cell fixture
grid does not clear the path of the affected car — the claim's removal half
fails at this concrete input (the car's stored path contains the cell, the
removal succeeds, and the car list comes back completely unchanged with a
nonempty path). -/
theorem retrait_obstacle_sans_recalcul :
    lireCase grilleDeuxCases (1, 0) = OBSTACLE_MANUEL ∧
    voitureAffectee.temps_arrivee = none ∧
    voitureAffectee.position ≠ ((1 : Int), (0 : Int)) ∧
    ((1 : Int), (0 : Int)) ∈ voitureAffectee.chemin ∧
    (retirer_obstacle_manuel grilleDeuxCases 1 0 [voitureAffectee]).1 =
      ecrireCase grilleDeuxCases (1, 0) ROUTE ∧
    (retirer_obstacle_manuel grilleDeuxCases 1 0 [voitureAffectee]).2 =
      [voitureAffectee] ∧
    voitureAffectee.chemin ≠ [] := by decide

/-- C5 (amended): the forced-replan hook runs on obstacle placement only.
When a manual or automatic obstacle is successfully placed at a cell, every
non-arrived agent not standing on that cell whose stored path contains the
cell or whose destination equals the cell has its path cleared, and its
blocked-since timestamp is left untouched by the hook; on obstacle removal
(manual or automatic) no forced replan occurs — the car list is unchanged. -/
theorem recalcul_force_pose_seulement (g : Grille) (x y : Int) (feux : List Feu)
    (voitures : List Voiture) :
    ((placer_obstacle_manuel g x y feux voitures).1 = true →
      (placer_obstacle_manuel g x y feux voitures).2.2 =
        forcer_recalcul_si_affecte x y voitures) ∧
    ((placer_obstacle_auto g x y feux voitures).1 = true →
      (placer_obstacle_auto g x y feux voitures).2.2 =
        forcer_recalcul_si_affecte x y voitures) ∧
    (retirer_obstacle_manuel g x y voitures).2 = voitures ∧
    (retirer_obstacle_auto g x y voitures).2 = voitures ∧
    (∀ v ∈ voitures, ∃ w ∈ forcer_recalcul_si_affecte x y voitures,
      w.id = v.id ∧
      ((v.temps_arrivee = none ∧ v.position ≠ (x, y) ∧
          ((x, y) ∈ v.chemin ∨ v.destination = (x, y))) →
        w.chemin = [] ∧ w.bloquee_depuis = v.bloquee_depuis) ∧
      (¬ (v.temps_arrivee = none ∧ v.position ≠ (x, y) ∧
          ((x, y) ∈ v.chemin ∨ v.destination = (x, y))) →
        w = v)) := by
  refine ⟨?_, ?_, ?_, ?_, ?_⟩
  · rcases hm : ajouter_obstacle_manuel g x y feux with ⟨b, g'⟩
    intro h
    unfold placer_obstacle_manuel at h ⊢
    rw [hm] at h ⊢
    cases b
    · exact Bool.noConfusion h
    · rfl
  · rcases hm : ajouter_obstacle_auto g x y feux with ⟨b, g'⟩
    intro h
    unfold placer_obstacle_auto at h ⊢
    rw [hm] at h ⊢
    cases b
    · exact Bool.noConfusion h
    · rfl
  · unfold retirer_obstacle_manuel
    split <;> rfl
  · rfl
  · intro v hv
    unfold forcer_recalcul_si_affecte
    refine ⟨forcerUn x y v, List.mem_map_of_mem (forcerUn x y) hv, ?_, ?_, ?_⟩
    · unfold forcerUn
      split <;> rfl
    · intro hc
      unfold forcerUn
      rw [if_pos hc]
      exact ⟨rfl, rfl⟩
    · intro hc
      unfold forcerUn
      rw [if_neg hc]

/-- Witness for the amended C5 on the fixture. -/
theorem recalcul_force_pose_seulement_temoin :
    (placer_obstacle_manuel grilleEssai 2 2 [] [voitureAffectee]).1 = true ∧
      (placer_obstacle_manuel grilleEssai 2 2 [] [voitureAffectee]).2.2 =
        forcer_recalcul_si_affecte 2 2 [voitureAffectee] := by
  have h := recalcul_force_pose_seulement grilleEssai 2 2 [] [voitureAffectee]
  exact ⟨by decide, h.1 (by decide)⟩

/-! ### C8 -/

/-- C8 counterexample: an arrived (grace-period) car standing on the crossing
cell does not stop the pedestrian — the pedestrian's progress still advances,
refuting "advanced iff no agent currently occupies its crossing cell" at this
concrete input. -/
theorem pieton_avance_malgre_voiture :
    voitureArriveeEssai.position = pietonEssai.passage_pos ∧
    progression_pietons [pietonEssai] [voitureArriveeEssai] =
      [{ pietonEssai with progres := pietonEssai.progres + VITESSE_PIETON }] ∧
    (mettre_a_jour_pietons [] [pietonEssai] [voitureArriveeEssai] 7 false 0).1 =
      [{ pietonEssai with progres := pietonEssai.progres + VITESSE_PIETON }] ∧
    pietonEssai.progres + VITESSE_PIETON ≠ pietonEssai.progres := by
  have hprog : progression_pietons [pietonEssai] [voitureArriveeEssai] =
      [{ pietonEssai with progres := pietonEssai.progres + VITESSE_PIETON }] := by
    unfold progression_pietons avancePieton voiture_presente_sur_passage
      pietonEssai voitureArriveeEssai VITESSE_PIETON
    norm_num
    simp
    norm_num
  refine ⟨rfl, hprog, ?_, ?_⟩
  · unfold mettre_a_jour_pietons apparition_pieton
    rw [hprog]
    norm_num
  · unfold pietonEssai VITESSE_PIETON
    norm_num

theorem apparition_pieton_structure (passages : List Passage)
    (ps : List Pieton) (voitures : List Voiture) (pid : Nat) (tirage : Bool)
    (choix : Nat) :
    ∃ nouveaux, (apparition_pieton passages ps voitures pid tirage choix).1 =
      ps ++ nouveaux ∧ ∀ q ∈ nouveaux, q.progres = 0 := by
  unfold apparition_pieton apparitionSurPassage
  split
  · split
    · refine ⟨[_], rfl, ?_⟩
      intro q hq
      rw [List.mem_singleton.mp hq]
    · exact ⟨[], (List.append_nil ps).symm, by intro q hq; cases hq⟩
  · exact ⟨[], (List.append_nil ps).symm, by intro q hq; cases hq⟩

/-- C8 (amended): on each pedestrian update, every active pedestrian's
progress advances by exactly `VITESSE_PIETON` iff no *non-arrived* agent
(`temps_arrivee` unset) currently occupies its crossing cell (otherwise it is
unchanged); every pedestrian whose advanced progress reaches 1 or more is
absent from the update's resulting active list, and every pedestrian whose
advanced progress stays below 1 survives; newly spawned pedestrians start at
progress 0. -/
theorem pietons_progression_exacte (passages : List Passage)
    (pietons : List Pieton) (voitures : List Voiture) (pid : Nat)
    (tirage : Bool) (choix : Nat) :
    (∃ nouveaux,
      (mettre_a_jour_pietons passages pietons voitures pid tirage choix).1 =
        progression_pietons pietons voitures ++ nouveaux ∧
        ∀ q ∈ nouveaux, q.progres = 0) ∧
    (∀ p ∈ pietons,
      ((∃ v ∈ voitures, v.temps_arrivee = none ∧ v.position = p.passage_pos) →
        (avancePieton voitures p).progres = p.progres) ∧
      ((¬ ∃ v ∈ voitures, v.temps_arrivee = none ∧ v.position = p.passage_pos) →
        (avancePieton voitures p).progres = p.progres + VITESSE_PIETON) ∧
      ((avancePieton voitures p).progres < 1 →
        avancePieton voitures p ∈ progression_pietons pietons voitures) ∧
      (1 ≤ (avancePieton voitures p).progres →
        avancePieton voitures p ∉
          (mettre_a_jour_pietons passages pietons voitures pid tirage choix).1)) := by
  have hpresence : ∀ p : Pieton,
      voiture_presente_sur_passage p.passage_pos voitures = true ↔
        ∃ v ∈ voitures, v.temps_arrivee = none ∧ v.position = p.passage_pos := by
    intro p
    unfold voiture_presente_sur_passage
    simp only [List.any_eq_true, decide_eq_true_eq]
    constructor
    · rintro ⟨v, hv, h1, h2⟩; exact ⟨v, hv, h2, h1⟩
    · rintro ⟨v, hv, h1, h2⟩; exact ⟨v, hv, h2, h1⟩
  obtain ⟨nouveaux, hstruct, hnouv⟩ :=
    apparition_pieton_structure passages (progression_pietons pietons voitures)
      voitures pid tirage choix
  refine ⟨⟨nouveaux, hstruct, hnouv⟩, ?_⟩
  intro p hp
  refine ⟨?_, ?_, ?_, ?_⟩
  · intro hocc
    unfold avancePieton
    rw [if_pos ((hpresence p).mpr hocc)]
  · intro hocc
    unfold avancePieton
    rw [if_neg (fun h => hocc ((hpresence p).mp h))]
  · intro hlt
    unfold progression_pietons
    exact List.mem_filter.mpr
      ⟨List.mem_map_of_mem (avancePieton voitures) hp, decide_eq_true hlt⟩
  · intro hge hmem
    unfold mettre_a_jour_pietons at hmem
    rw [hstruct] at hmem
    rcases List.mem_append.mp hmem with hmem | hmem
    · obtain ⟨-, hdec⟩ := List.mem_filter.mp hmem
      have := of_decide_eq_true hdec
      exact absurd this (not_lt.mpr hge)
    · have h0 := hnouv _ hmem
      rw [h0] at hge
      exact absurd hge (by norm_num)

/-- Witness for the amended C8 on the fixture pedestrian. -/
theorem pietons_progression_exacte_temoin :
    pietonEssai ∈ [pietonEssai] ∧
      ((¬ ∃ v ∈ [voitureEssai], v.temps_arrivee = none ∧
          v.position = pietonEssai.passage_pos) →
        (avancePieton [voitureEssai] pietonEssai).progres =
          pietonEssai.progres + VITESSE_PIETON) := by
  have h := pietons_progression_exacte [] [pietonEssai] [voitureEssai] 7 false 0
  exact ⟨List.mem_singleton_self pietonEssai,
    (h.2 pietonEssai (List.mem_singleton_self pietonEssai)).2.1⟩

/-! ### Resolution-phase lemmas (for C2, C4, C10) -/

theorem lookup_entree {l : List (Nat × Pos)} {a : Nat} {b : Pos}
    (h : l.lookup a = some b) : (a, b) ∈ l := by
  induction l with
  | nil => cases h
  | cons p l ih =>
      rcases p with ⟨k, w⟩
      rw [List.lookup_cons] at h
      by_cases hk : (a == k) = true
      · rw [hk] at h
        obtain rfl : a = k := by simpa using hk
        cases h
        exact List.mem_cons_self _ _
      · rw [Bool.eq_false_iff.mpr hk] at h
        exact List.mem_cons_of_mem _ (ih h)

/-- Every approved move either was already in the accumulator or has a target
that was unreserved at approval time (hence outside the initial reservation
set) and passes `est_deplacement_valide`. -/
theorem resoudre_approuve (feux : List Feu) (pietons : List Pieton) (g : Grille) :
    ∀ (rest : List Voiture) (proj : List Pos) (app : List (Nat × Pos))
      (e : Nat × Pos), e ∈ resoudre feux pietons g proj app rest →
      e ∈ app ∨ (e.2 ∉ proj ∧ est_deplacement_valide e.2 feux pietons g = true) := by
  intro rest
  induction rest with
  | nil => intro proj app e h; exact Or.inl h
  | cons v rest ih =>
      intro proj app e h
      unfold resoudre at h
      cases hch : v.chemin with
      | nil =>
          rw [hch] at h
          exact ih proj app e h
      | cons next reste =>
          rw [hch] at h
          dsimp only at h
          by_cases hc : next ∉ proj ∧
              est_deplacement_valide next feux pietons g = true
          · rw [if_pos hc] at h
            rcases ih _ _ e h with he | ⟨hn, hval⟩
            · rcases List.mem_cons.mp he with rfl | he
              · exact Or.inr hc
              · exact Or.inl he
            · exact Or.inr ⟨fun hmem => hn (List.mem_cons_of_mem _ hmem), hval⟩
          · rw [if_neg hc] at h
            exact ih proj app e h

/-- The targets of the approved moves are pairwise distinct. -/
theorem resoudre_cibles_nodup (feux : List Feu) (pietons : List Pieton)
    (g : Grille) :
    ∀ (rest : List Voiture) (proj : List Pos) (app : List (Nat × Pos)),
      (app.map Prod.snd).Nodup → (∀ e ∈ app, e.2 ∈ proj) →
      ((resoudre feux pietons g proj app rest).map Prod.snd).Nodup := by
  intro rest
  induction rest with
  | nil => intro proj app happ _; exact happ
  | cons v rest ih =>
      intro proj app happ hin
      unfold resoudre
      cases hch : v.chemin with
      | nil => exact ih proj app happ hin
      | cons next reste =>
          dsimp only
          by_cases hc : next ∉ proj ∧
              est_deplacement_valide next feux pietons g = true
          · rw [if_pos hc]
            refine ih _ _ ?_ ?_
            · refine List.nodup_cons.mpr ⟨?_, happ⟩
              intro hmem
              obtain ⟨e, he, hsnd⟩ := List.mem_map.mp hmem
              have hsnd' : e.2 = next := hsnd
              refine hc.1 ?_
              rw [← hsnd']
              exact hin e he
            · intro e he
              rcases List.mem_cons.mp he with rfl | he
              · exact List.mem_cons_self _ _
              · exact List.mem_cons_of_mem _ (hin e he)
          · rw [if_neg hc]
            exact ih proj app happ hin

/-- Unfolding of `est_deplacement_valide` into its four conditions. -/
theorem est_deplacement_valide_vrai (pos : Pos) (feux : List Feu)
    (pietons : List Pieton) (g : Grille) :
    est_deplacement_valide pos feux pietons g = true ↔
      (dansLimites g pos ∧ lireCase g pos = ROUTE ∧
        (∀ feu ∈ feux, feu.position = pos → feu.etat = "vert") ∧
        (∀ p ∈ pietons, p.passage_pos = pos → 1 ≤ p.progres)) := by
  unfold est_deplacement_valide
  simp only [Bool.and_eq_true, List.all_eq_true, decide_eq_true_eq, and_assoc]

/-- Mapping then filtering then projecting keeps a list duplicate-free when
the original list is pairwise separated under the composite. -/
theorem nodup_map_filter_map {α β γ : Type} (l : List α) (f : α → β)
    (q : β → Bool) (g : β → γ)
    (h : l.Pairwise fun a b => q (f a) = true → q (f b) = true →
      g (f a) ≠ g (f b)) :
    (((l.map f).filter q).map g).Nodup := by
  induction l with
  | nil => exact List.Pairwise.nil
  | cons a l ih =>
      obtain ⟨ha, hl⟩ := List.pairwise_cons.mp h
      rw [List.map_cons, List.filter_cons]
      by_cases hq : q (f a) = true
      · rw [if_pos hq, List.map_cons]
        refine List.nodup_cons.mpr ⟨?_, ih hl⟩
        intro hmem
        obtain ⟨b', hb', hgb⟩ := List.mem_map.mp hmem
        obtain ⟨hb'm, hb'q⟩ := List.mem_filter.mp hb'
        obtain ⟨b, hb, rfl⟩ := List.mem_map.mp hb'm
        exact ha b hb hq hb'q hgb.symm
      · rw [if_neg hq]
        exact ih hl

/-- Tracing a car of the update's output back to the input list: the id,
destination are preserved, being en route is preserved backwards, and the
position either is the original one or comes from an approved move. -/
theorem tick_membres (fuel : Nat) (melange : List Voiture → List Voiture)
    (t : ℚ) (voitures : List Voiture) (g : Grille) (feux : List Feu)
    (dl dc : Int → Option String) (pietons : List Pieton) :
    ∀ w ∈ mettre_a_jour_voitures fuel melange t voitures g feux dl dc pietons,
      ∃ v ∈ voitures, w.id = v.id ∧
        (w.position = v.position ∨
          (mouvements_approuves fuel melange t voitures g feux dl dc
            pietons).lookup w.id = some w.position) := by
  intro w hw
  unfold mettre_a_jour_voitures at hw
  obtain ⟨v2, hv2, hid, -, -, -, hposition⟩ :=
    appliquer_mouvements_membres _ _ _ w hw
  unfold voituresRecalculees at hv2
  obtain ⟨v1, hv1, him⟩ := List.mem_map.mp hv2
  obtain ⟨ridv, -, rpos, -, -⟩ := recalcul_un_champs fuel g dl dc t v1
  obtain ⟨v0, hv0, mid, -, mpos, -, -⟩ := marquer_arrivees_membres t voitures v1 hv1
  refine ⟨v0, hv0, ?_, ?_⟩
  · rw [hid, ← him, ridv, mid]
  · rcases hposition with h | h
    · exact Or.inl (by rw [h, ← him, rpos, mpos])
    · exact Or.inr (by rw [hid]; exact h)

/-! ### C2 -/

/-- C2: mutual exclusion.  If at the start of the tick the cars have pairwise
distinct ids and no two non-arrived cars share a cell, then after the apply
phase no two non-arrived cars occupy the same grid cell: the initial
reservation set holds all current positions of non-arrived cars, each approved
target is added to it, and a move is approved only if its target is not in the
set, so approved targets are fresh and pairwise distinct. -/
theorem exclusion_mutuelle (fuel : Nat) (melange : List Voiture → List Voiture)
    (t : ℚ) (voitures : List Voiture) (g : Grille) (feux : List Feu)
    (dl dc : Int → Option String) (pietons : List Pieton)
    (hids : (voitures.map (·.id)).Nodup)
    (hpos : ((voitures.filter fun v => decide (v.temps_arrivee = none)).map
      (·.position)).Nodup) :
    (((mettre_a_jour_voitures fuel melange t voitures g feux dl dc
        pietons).filter fun v => decide (v.temps_arrivee = none)).map
      (·.position)).Nodup := by
  have happ0 : ∀ e ∈ mouvements_approuves fuel melange t voitures g feux dl dc
      pietons, e.2 ∉ ((voituresEnRoute fuel g dl dc t voitures).map
        (·.position)) ∧ est_deplacement_valide e.2 feux pietons g = true := by
    intro e he
    rcases resoudre_approuve feux pietons g _ _ _ e he with h | h
    · cases h
    · exact h
  have hcibles : ((mouvements_approuves fuel melange t voitures g feux dl dc
      pietons).map Prod.snd).Nodup := by
    refine resoudre_cibles_nodup feux pietons g _ _ _ ?_ ?_
    · exact List.Pairwise.nil
    · intro e he; cases he
  -- pairwise invariant on the recalculated list
  have hP : (voituresRecalculees fuel g dl dc t voitures).Pairwise
      (fun a b => a.id ≠ b.id ∧ (a.temps_arrivee = none →
        b.temps_arrivee = none → a.position ≠ b.position)) := by
    have h0 : voitures.Pairwise (fun a b => a.id ≠ b.id ∧
        (a.temps_arrivee = none → b.temps_arrivee = none →
          a.position ≠ b.position)) := by
      refine List.Pairwise.and ?_ ?_
      · exact (List.pairwise_map.mp hids)
      · exact List.pairwise_filter.mp (List.pairwise_map.mp hpos)
    unfold voituresRecalculees marquer_arrivees
    rw [List.pairwise_map]
    refine List.Pairwise.filter _ ?_
    rw [List.pairwise_map]
    refine h0.imp ?_
    intro a b hab
    obtain ⟨ra, -, rpa, rta, -⟩ := recalcul_un_champs fuel g dl dc t (marqueUn t a)
    obtain ⟨rb, -, rpb, rtb, -⟩ := recalcul_un_champs fuel g dl dc t (marqueUn t b)
    have mka : (marqueUn t a).id = a.id ∧ (marqueUn t a).position = a.position ∧
        ((marqueUn t a).temps_arrivee = none → a.temps_arrivee = none) := by
      unfold marqueUn; split
      · exact ⟨rfl, rfl, fun h => by cases h⟩
      · exact ⟨rfl, rfl, fun h => h⟩
    have mkb : (marqueUn t b).id = b.id ∧ (marqueUn t b).position = b.position ∧
        ((marqueUn t b).temps_arrivee = none → b.temps_arrivee = none) := by
      unfold marqueUn; split
      · exact ⟨rfl, rfl, fun h => by cases h⟩
      · exact ⟨rfl, rfl, fun h => h⟩
    constructor
    · rw [ra, rb, mka.1, mkb.1]; exact hab.1
    · intro hta htb
      rw [rpa, rpb, mka.2.1, mkb.2.1]
      rw [rta] at hta
      rw [rtb] at htb
      exact hab.2 (mka.2.2 hta) (mkb.2.2 htb)
  -- transport through the apply phase
  have hta : ∀ v : Voiture, (appliqueUn t (mouvements_approuves fuel melange t
      voitures g feux dl dc pietons) v).temps_arrivee = v.temps_arrivee := by
    intro v
    unfold appliqueUn
    cases app : (mouvements_approuves fuel melange t voitures g feux dl dc
      pietons).lookup v.id <;> rfl
  unfold mettre_a_jour_voitures appliquer_mouvements
  refine nodup_map_filter_map _ _ _ _ ?_
  refine List.Pairwise.imp_of_mem ?_ hP
  intro a b ha hb hab h1 h2
  rw [hta a] at h1
  rw [hta b] at h2
  have h1' := of_decide_eq_true h1
  have h2' := of_decide_eq_true h2
  have hmemA : a.position ∈ (voituresEnRoute fuel g dl dc t voitures).map
      (·.position) := by
    refine List.mem_map_of_mem _ ?_
    unfold voituresEnRoute
    exact List.mem_filter.mpr ⟨ha, decide_eq_true h1'⟩
  have hmemB : b.position ∈ (voituresEnRoute fuel g dl dc t voitures).map
      (·.position) := by
    refine List.mem_map_of_mem _ ?_
    unfold voituresEnRoute
    exact List.mem_filter.mpr ⟨hb, decide_eq_true h2'⟩
  -- the applied positions
  have hposition : ∀ v : Voiture, (appliqueUn t (mouvements_approuves fuel
      melange t voitures g feux dl dc pietons) v).position =
      ((mouvements_approuves fuel melange t voitures g feux dl dc
        pietons).lookup v.id).getD v.position := by
    intro v
    unfold appliqueUn
    cases app : (mouvements_approuves fuel melange t voitures g feux dl dc
      pietons).lookup v.id <;> rfl
  rw [hposition a, hposition b]
  cases hA : (mouvements_approuves fuel melange t voitures g feux dl dc
      pietons).lookup a.id with
  | none =>
      cases hB : (mouvements_approuves fuel melange t voitures g feux dl dc
          pietons).lookup b.id with
      | none => exact hab.2 h1' h2'
      | some nb =>
          intro hcontra
          simp only [Option.getD_some, Option.getD_none] at hcontra
          have hbmem := lookup_entree hB
          have := (happ0 _ hbmem).1
          exact this (hcontra ▸ hmemA)
  | some na =>
      have hamem := lookup_entree hA
      cases hB : (mouvements_approuves fuel melange t voitures g feux dl dc
          pietons).lookup b.id with
      | none =>
          intro hcontra
          simp only [Option.getD_some, Option.getD_none] at hcontra
          have := (happ0 _ hamem).1
          exact this (hcontra ▸ hmemB)
      | some nb =>
          intro hcontra
          simp only [Option.getD_some, Option.getD_none] at hcontra
          have hbmem := lookup_entree hB
          have heq := List.inj_on_of_nodup_map hcibles hamem hbmem hcontra
          exact hab.1 (congrArg Prod.fst heq)

/-- Witness for C2 on the fixture car. -/
theorem exclusion_mutuelle_temoin :
    (([voitureEssai].map (·.id)).Nodup ∧
      (([voitureEssai].filter fun v => decide (v.temps_arrivee = none)).map
        (·.position)).Nodup) ∧
    (((mettre_a_jour_voitures 200 id 10 [voitureEssai] grilleEssai [] dlEssai
        dcEssai []).filter fun v => decide (v.temps_arrivee = none)).map
      (·.position)).Nodup :=
  ⟨⟨by decide, by decide⟩,
   exclusion_mutuelle 200 id 10 [voitureEssai] grilleEssai [] dlEssai dcEssai []
     (by decide) (by decide)⟩

/-! ### C4 -/

/-- C4: gating.  If a cell hosts a light whose phase is not green, or hosts a
pedestrian with progress < 1, then no move into that cell is approved this
tick, and after the apply phase every car standing on that cell corresponds to
an input car that already stood on it (no car moved into the cell). -/
theorem feux_et_pietons_bloquent (fuel : Nat)
    (melange : List Voiture → List Voiture) (t : ℚ) (voitures : List Voiture)
    (g : Grille) (feux : List Feu) (dl dc : Int → Option String)
    (pietons : List Pieton) (c : Pos)
    (hc : (∃ feu ∈ feux, feu.position = c ∧ feu.etat ≠ "vert") ∨
      (∃ p ∈ pietons, p.passage_pos = c ∧ p.progres < 1)) :
    (∀ e ∈ mouvements_approuves fuel melange t voitures g feux dl dc pietons,
      e.2 ≠ c) ∧
    (∀ w ∈ mettre_a_jour_voitures fuel melange t voitures g feux dl dc pietons,
      w.position = c → ∃ v ∈ voitures, w.id = v.id ∧ v.position = c) := by
  have hinvalide : est_deplacement_valide c feux pietons g ≠ true := by
    intro hval
    obtain ⟨-, -, hfeux, hpietons⟩ := (est_deplacement_valide_vrai c feux
      pietons g).mp hval
    rcases hc with ⟨feu, hmem, hpos, hvert⟩ | ⟨p, hmem, hpos, hprog⟩
    · exact hvert (hfeux feu hmem hpos)
    · exact absurd (hpietons p hmem hpos) (not_le.mpr hprog)
  have happ : ∀ e ∈ mouvements_approuves fuel melange t voitures g feux dl dc
      pietons, e.2 ≠ c := by
    intro e he heq
    rcases resoudre_approuve feux pietons g _ _ _ e he with h | ⟨-, hval⟩
    · cases h
    · exact hinvalide (heq ▸ hval)
  refine ⟨happ, ?_⟩
  intro w hw hwpos
  obtain ⟨v, hv, hid, hpos⟩ := tick_membres fuel melange t voitures g feux dl dc
    pietons w hw
  rcases hpos with h | h
  · exact ⟨v, hv, hid, by rw [← h, hwpos]⟩
  · exact absurd hwpos (happ _ (lookup_entree h))

/-- Witness for C4: a red light on the connector cell of the fixture grid. -/
theorem feux_et_pietons_bloquent_temoin :
    ((∃ feu ∈ [feuEssai], feu.position = ((2 : Int), (2 : Int)) ∧
        feu.etat ≠ "vert") ∨
      (∃ p ∈ ([] : List Pieton), p.passage_pos = ((2 : Int), (2 : Int)) ∧
        p.progres < 1)) ∧
    (∀ e ∈ mouvements_approuves 200 id 10 [voitureEssai] grilleEssai [feuEssai]
        dlEssai dcEssai [], e.2 ≠ ((2 : Int), (2 : Int))) :=
  ⟨Or.inl ⟨feuEssai, List.mem_singleton_self feuEssai, rfl, by decide⟩,
   (feux_et_pietons_bloquent 200 id 10 [voitureEssai] grilleEssai [feuEssai]
     dlEssai dcEssai [] (2, 2)
     (Or.inl ⟨feuEssai, List.mem_singleton_self feuEssai, rfl, by decide⟩)).1⟩

/-! ### C10 -/

/-- C10: move approval requires the target cell to be an in-bounds ROUTE cell
of the current grid (a fourth condition beyond the three of the spec), so no
car is ever moved onto a non-road or obstacle cell — even when its stored path
(computed before an obstacle appeared) still runs through that cell. -/
theorem cible_approuvee_est_route (fuel : Nat)
    (melange : List Voiture → List Voiture) (t : ℚ) (voitures : List Voiture)
    (g : Grille) (feux : List Feu) (dl dc : Int → Option String)
    (pietons : List Pieton) (c : Pos)
    (hc : ¬ (dansLimites g c ∧ lireCase g c = ROUTE)) :
    est_deplacement_valide c feux pietons g = false ∧
    (∀ e ∈ mouvements_approuves fuel melange t voitures g feux dl dc pietons,
      dansLimites g e.2 ∧ lireCase g e.2 = ROUTE) ∧
    (∀ w ∈ mettre_a_jour_voitures fuel melange t voitures g feux dl dc pietons,
      w.position = c → ∃ v ∈ voitures, w.id = v.id ∧ v.position = c) := by
  have hfaux : est_deplacement_valide c feux pietons g = false := by
    rw [Bool.eq_false_iff]
    intro hval
    obtain ⟨h1, h2, -, -⟩ := (est_deplacement_valide_vrai c feux pietons g).mp hval
    exact hc ⟨h1, h2⟩
  have happ : ∀ e ∈ mouvements_approuves fuel melange t voitures g feux dl dc
      pietons, dansLimites g e.2 ∧ lireCase g e.2 = ROUTE := by
    intro e he
    rcases resoudre_approuve feux pietons g _ _ _ e he with h | ⟨-, hval⟩
    · cases h
    · obtain ⟨h1, h2, -, -⟩ :=
        (est_deplacement_valide_vrai e.2 feux pietons g).mp hval
      exact ⟨h1, h2⟩
  refine ⟨hfaux, happ, ?_⟩
  intro w hw hwpos
  obtain ⟨v, hv, hid, hpos⟩ := tick_membres fuel melange t voitures g feux dl dc
    pietons w hw
  rcases hpos with h | h
  · exact ⟨v, hv, hid, by rw [← h, hwpos]⟩
  · obtain ⟨h1, h2⟩ := happ _ (lookup_entree h)
    rw [hwpos] at h1 h2
    exact absurd ⟨h1, h2⟩ hc

/-- Witness for C10: the obstacle cell of the obstructed fixture grid. -/
theorem cible_approuvee_est_route_temoin :
    (¬ (dansLimites grilleObstruee ((2 : Int), (2 : Int)) ∧
        lireCase grilleObstruee (2, 2) = ROUTE)) ∧
    est_deplacement_valide (2, 2) [] [] grilleObstruee = false :=
  ⟨by decide,
   (cible_approuvee_est_route 200 id 10 [voitureEssai] grilleObstruee [] dlEssai
     dcEssai [] (2, 2) (by decide)).1⟩

/-! ### A* heap-order lemmas -/

theorem entreeLe_vrai (e f : Entree) : entreeLe e f = true ↔
    (e.1 < f.1 ∨ (e.1 = f.1 ∧
      (e.2.1 < f.2.1 ∨ (e.2.1 = f.2.1 ∧ e.2.2 ≤ f.2.2)))) := by
  unfold entreeLe
  exact decide_eq_true_iff

theorem entreeLe_refl (e : Entree) : entreeLe e e = true :=
  (entreeLe_vrai e e).mpr (Or.inr ⟨rfl, Or.inr ⟨rfl, le_refl _⟩⟩)

theorem entreeLe_trans {e f h : Entree} (h1 : entreeLe e f = true)
    (h2 : entreeLe f h = true) : entreeLe e h = true := by
  have p1 := (entreeLe_vrai e f).mp h1
  have p2 := (entreeLe_vrai f h).mp h2
  refine (entreeLe_vrai e h).mpr ?_
  omega

theorem entreeLe_totale (e f : Entree) :
    entreeLe e f = true ∨ entreeLe f e = true := by
  rw [entreeLe_vrai, entreeLe_vrai]
  omega

theorem entreeLe_fst {e f : Entree} (h : entreeLe e f = true) : e.1 ≤ f.1 := by
  have := (entreeLe_vrai e f).mp h
  omega

theorem foldlMin_choix :
    ∀ (es : List Entree) (e : Entree),
      es.foldl (fun m x => if entreeLe x m then x else m) e = e ∨
      es.foldl (fun m x => if entreeLe x m then x else m) e ∈ es := by
  intro es
  induction es with
  | nil => intro e; exact Or.inl rfl
  | cons x es ih =>
      intro e
      rw [List.foldl_cons]
      rcases ih (if entreeLe x e then x else e) with h | h
      · rw [h]
        by_cases hc : entreeLe x e = true
        · rw [if_pos hc]; exact Or.inr (List.mem_cons_self _ _)
        · rw [if_neg hc]; exact Or.inl rfl
      · exact Or.inr (List.mem_cons_of_mem _ h)

theorem foldlMin_borne :
    ∀ (es : List Entree) (e : Entree),
      entreeLe (es.foldl (fun m x => if entreeLe x m then x else m) e) e = true ∧
      ∀ x ∈ es,
        entreeLe (es.foldl (fun m x => if entreeLe x m then x else m) e) x = true := by
  intro es
  induction es with
  | nil => intro e; exact ⟨entreeLe_refl e, by intro x hx; cases hx⟩
  | cons x es ih =>
      intro e
      rw [List.foldl_cons]
      by_cases hc : entreeLe x e = true
      · rw [if_pos hc]
        obtain ⟨hstart, htous⟩ := ih x
        refine ⟨entreeLe_trans hstart hc, ?_⟩
        intro y hy
        rcases List.mem_cons.mp hy with rfl | hy
        · exact hstart
        · exact htous y hy
      · rw [if_neg hc]
        obtain ⟨hstart, htous⟩ := ih e
        refine ⟨hstart, ?_⟩
        intro y hy
        rcases List.mem_cons.mp hy with rfl | hy
        · rcases entreeLe_totale y e with h | h
          · exact absurd h hc
          · exact entreeLe_trans hstart h
        · exact htous y hy

theorem minEntree_mem {l : List Entree} {m : Entree} (h : minEntree l = some m) :
    m ∈ l := by
  cases l with
  | nil => cases h
  | cons e es =>
      unfold minEntree at h
      cases h
      rcases foldlMin_choix es e with h | h
      · rw [h]; exact List.mem_cons_self _ _
      · exact List.mem_cons_of_mem _ h

theorem minEntree_petit {l : List Entree} {m : Entree} (h : minEntree l = some m) :
    ∀ e ∈ l, entreeLe m e = true := by
  cases l with
  | nil => cases h
  | cons e es =>
      unfold minEntree at h
      cases h
      intro x hx
      obtain ⟨hstart, htous⟩ := foldlMin_borne es e
      rcases List.mem_cons.mp hx with rfl | hx
      · exact hstart
      · exact htous x hx

theorem heapPop_spec {l : List Entree} {m : Entree} {r : List Entree}
    (h : heapPop l = some (m, r)) :
    m ∈ l ∧ (∀ e ∈ l, entreeLe m e = true) ∧ r = l.erase m ∧
      r.length + 1 = l.length := by
  unfold heapPop at h
  cases hm : minEntree l with
  | none => rw [hm] at h; cases h
  | some m' =>
      rw [hm] at h
      cases h
      have hmem := minEntree_mem hm
      refine ⟨hmem, minEntree_petit hm, rfl, ?_⟩
      rw [List.length_erase_of_mem hmem]
      have : 0 < l.length := List.length_pos.mpr (List.ne_nil_of_mem hmem)
      omega

theorem heapPop_vide {l : List Entree} (h : heapPop l = none) : l = [] := by
  unfold heapPop at h
  cases hm : minEntree l with
  | none =>
      cases l with
      | nil => rfl
      | cons e es => unfold minEntree at hm; cases hm
  | some m => rw [hm] at h; cases h

/-! ### Walk lemmas -/

theorem arete_inb {g : Grille} {dl dc : Int → Option String} {c v : Pos}
    (h : Arete g dl dc c v) : dansLimites g v := by
  obtain ⟨d, -, -, h2, -, -⟩ := h
  exact h2

theorem arete_route {g : Grille} {dl dc : Int → Option String} {c v : Pos}
    (h : Arete g dl dc c v) : lireCase g v = ROUTE := by
  obtain ⟨d, -, -, -, h3, -⟩ := h
  exact h3

theorem atteint_zero {g : Grille} {dl dc : Int → Option String} {a : Pos} :
    AtteintEn g dl dc a a 0 :=
  ⟨[], List.Chain.nil, rfl, rfl⟩

theorem atteint_zero_eq {g : Grille} {dl dc : Int → Option String} {a b : Pos}
    (h : AtteintEn g dl dc a b 0) : a = b := by
  obtain ⟨l, -, hlen, hlast⟩ := h
  rw [List.length_eq_zero.mp hlen] at hlast
  cases hlast
  rfl

theorem chain_snoc {R : Pos → Pos → Prop} :
    ∀ (l : List Pos) (a b c : Pos), List.Chain R a l →
      (a :: l).getLast? = some b → R b c → List.Chain R a (l ++ [c]) := by
  intro l
  induction l with
  | nil =>
      intro a b c _ hlast hbc
      cases hlast
      exact List.Chain.cons hbc List.Chain.nil
  | cons x l ih =>
      intro a b c hchain hlast hbc
      cases hchain with
      | cons hax hxl =>
          refine List.Chain.cons hax (ih x b c hxl ?_ hbc)
          rw [← hlast]
          rfl

theorem chain_snoc_inv {R : Pos → Pos → Prop} :
    ∀ (l : List Pos) (a c : Pos), List.Chain R a (l ++ [c]) →
      List.Chain R a l ∧ ∃ b, (a :: l).getLast? = some b ∧ R b c := by
  intro l
  induction l with
  | nil =>
      intro a c hchain
      cases hchain with
      | cons hac _ => exact ⟨List.Chain.nil, a, rfl, hac⟩
  | cons x l ih =>
      intro a c hchain
      cases hchain with
      | cons hax hxl =>
          obtain ⟨hcl, b, hlast, hbc⟩ := ih x c hxl
          exact ⟨List.Chain.cons hax hcl, b, by rw [← hlast]; rfl, hbc⟩

theorem atteint_snoc {g : Grille} {dl dc : Int → Option String} {a b c : Pos}
    {n : Nat} (h : AtteintEn g dl dc a b n) (hbc : Arete g dl dc b c) :
    AtteintEn g dl dc a c (n + 1) := by
  obtain ⟨l, hchain, hlen, hlast⟩ := h
  refine ⟨l ++ [c], chain_snoc l a b c hchain hlast hbc, ?_, ?_⟩
  · simp [hlen]
  · rw [show a :: (l ++ [c]) = (a :: l) ++ [c] from rfl, List.getLast?_concat]

theorem atteint_succ {g : Grille} {dl dc : Int → Option String} {a c : Pos}
    {n : Nat} (h : AtteintEn g dl dc a c (n + 1)) :
    ∃ b, AtteintEn g dl dc a b n ∧ Arete g dl dc b c := by
  obtain ⟨l, hchain, hlen, hlast⟩ := h
  rcases List.eq_nil_or_concat l with rfl | ⟨l', x, rfl⟩
  · cases hlen
  · rw [List.concat_eq_append] at hchain hlen hlast
    obtain ⟨hcl, b, hlastb, hbc⟩ := chain_snoc_inv l' a x hchain
    rw [show a :: (l' ++ [x]) = (a :: l') ++ [x] from rfl,
      List.getLast?_concat] at hlast
    cases hlast
    refine ⟨b, ⟨l', hcl, ?_, hlastb⟩, hbc⟩
    rw [List.length_append] at hlen
    simpa using hlen

theorem chain_noeuds {g : Grille} {dl dc : Int → Option String} :
    ∀ (l : List Pos) (a : Pos), List.Chain (Arete g dl dc) a l →
      ∀ p ∈ l, dansLimites g p ∧ lireCase g p = ROUTE := by
  intro l
  induction l with
  | nil => intro a _ p hp; cases hp
  | cons x l ih =>
      intro a hchain p hp
      cases hchain with
      | cons hax hxl =>
          rcases List.mem_cons.mp hp with rfl | hp
          · exact ⟨arete_inb hax, arete_route hax⟩
          · exact ih x hxl p hp

/-! ### Heuristic lemmas -/

theorem heuristique_zero (a : Pos) : heuristique a a = 0 := by
  unfold heuristique
  simp

theorem heuristique_consistante (arr : Pos) {g : Grille}
    {dl dc : Int → Option String} {y z : Pos} (h : Arete g dl dc y z) :
    heuristique y arr ≤ heuristique z arr + 1 := by
  obtain ⟨d, hd, rfl, -, -, -⟩ := h
  unfold cardinal_directions at hd
  unfold heuristique
  simp only [List.mem_cons, List.mem_singleton, List.not_mem_nil] at hd
  rcases hd with rfl | rfl | rfl | hd
  · omega
  · omega
  · omega
  · rcases hd with rfl | hd
    · omega
    · cases hd

/-! ### Pigeonhole bound on shortest walks -/

theorem chain_dedup {g : Grille} {dl dc : Int → Option String} :
    ∀ (n : Nat) (l : List Pos) (a : Pos), l.length ≤ n →
      List.Chain (Arete g dl dc) a l →
      ∃ l', l'.length ≤ l.length ∧ List.Chain (Arete g dl dc) a l' ∧
        (a :: l').getLast? = (a :: l).getLast? ∧ (a :: l').Nodup ∧ l' ⊆ l := by
  intro n
  induction n with
  | zero =>
      intro l a hlen _
      rw [List.length_eq_zero.mp (Nat.le_zero.mp hlen)]
      exact ⟨[], le_refl _, List.Chain.nil, rfl, List.nodup_singleton a,
        List.Subset.refl _⟩
  | succ n ih =>
      intro l a hlen hchain
      by_cases ha : a ∈ l
      · obtain ⟨s, t, rfl⟩ := List.append_of_mem ha
        have hchain2 : List.Chain (Arete g dl dc) a t :=
          (List.chain_split.mp hchain).2
        have hlen2 : t.length ≤ n := by
          rw [List.length_append] at hlen
          simp only [List.length_cons] at hlen
          omega
        obtain ⟨l', h1, h2, h3, h4, h5⟩ := ih t a hlen2 hchain2
        refine ⟨l', ?_, h2, ?_, h4, ?_⟩
        · rw [List.length_append]
          simp only [List.length_cons]
          omega
        · rw [h3]
          rw [show a :: (s ++ a :: t) = (a :: s) ++ (a :: t) from rfl,
            List.getLast?_append]
          have hns : (a :: t).getLast? ≠ none := by
            simp
          cases hz : (a :: t).getLast? with
          | none => exact absurd hz hns
          | some z => rfl
        · intro x hx
          exact List.mem_append.mpr (Or.inr (List.mem_cons_of_mem a (h5 hx)))
      · cases l with
        | nil =>
            exact ⟨[], le_refl _, List.Chain.nil, rfl, List.nodup_singleton a,
              List.Subset.refl _⟩
        | cons b lt =>
            cases hchain with
            | cons hab hblt =>
                have hlen2 : lt.length ≤ n := by
                  simp only [List.length_cons] at hlen
                  omega
                obtain ⟨l', h1, h2, h3, h4, h5⟩ := ih lt b hlen2 hblt
                have hanb : a ∉ b :: l' := by
                  intro hmem
                  rcases List.mem_cons.mp hmem with rfl | hmem
                  · exact ha (List.mem_cons_self _ _)
                  · exact ha (List.mem_cons_of_mem b (h5 hmem))
                refine ⟨b :: l', by simpa using Nat.succ_le_succ h1,
                  List.Chain.cons hab h2, ?_, ?_, ?_⟩
                · rw [show (a :: b :: l').getLast? = (b :: l').getLast? from rfl,
                    show (a :: b :: lt).getLast? = (b :: lt).getLast? from rfl]
                  exact h3
                · exact List.nodup_cons.mpr ⟨hanb, h4⟩
                · intro x hx
                  rcases List.mem_cons.mp hx with rfl | hx
                  · exact List.mem_cons_self _ _
                  · exact List.mem_cons_of_mem b (h5 hx)

theorem noeuds_dans_cellules {g : Grille} {p : Pos} (h : dansLimites g p) :
    p ∈ cellules g := by
  obtain ⟨h1, h2, h3, h4⟩ := h
  unfold cellules
  refine Finset.mem_image.mpr ⟨(p.1.toNat, p.2.toNat), ?_, ?_⟩
  · exact Finset.mem_product.mpr
      ⟨Finset.mem_range.mpr (by omega), Finset.mem_range.mpr (by omega)⟩
  · have e1 : (p.1.toNat : Int) = p.1 := Int.toNat_of_nonneg h1
    have e2 : (p.2.toNat : Int) = p.2 := Int.toNat_of_nonneg h3
    cases p
    simp only at e1 e2 ⊢
    rw [e1, e2]

theorem carte_cellules (g : Grille) :
    (cellules g).card ≤ tailleX g * tailleY g := by
  unfold cellules
  refine le_trans (Finset.card_image_le) ?_
  rw [Finset.card_product]
  simp

theorem atteint_borne {g : Grille} {dl dc : Int → Option String} {a b : Pos}
    {n : Nat} (ha : dansLimites g a) (h : AtteintEn g dl dc a b n) :
    ∃ m, m + 1 ≤ tailleX g * tailleY g ∧ AtteintEn g dl dc a b m := by
  obtain ⟨l, hchain, hlen, hlast⟩ := h
  obtain ⟨l', h1, h2, h3, h4, -⟩ := chain_dedup l.length l a (le_refl _) hchain
  refine ⟨l'.length, ?_, ⟨l', h2, rfl, by rw [h3]; exact hlast⟩⟩
  have hnodes : ∀ p ∈ a :: l', p ∈ cellules g := by
    intro p hp
    rcases List.mem_cons.mp hp with rfl | hp
    · exact noeuds_dans_cellules ha
    · exact noeuds_dans_cellules (chain_noeuds l' a h2 p hp).1
  have hcount : (a :: l').length ≤ (cellules g).card := by
    rw [← List.toFinset_card_of_nodup h4]
    refine Finset.card_le_card ?_
    intro p hp
    exact hnodes p (List.mem_toFinset.mp hp)
  have hcard := carte_cellules g
  simp only [List.length_cons] at hcount
  omega

/-! ### Key A* frontier lemma and optimality of popped costs -/

/-- Along any walk from the start, either the endpoint already carries a cost
at most the walk length, or some open entry's priority is dominated by the
walk length plus the endpoint's heuristic (consistency pushes the frontier
bound along the walk). -/
theorem inva_cle {g : Grille} {dl dc : Int → Option String}
    {depart arrivee : Pos} {ex : Pos → Prop} {s : EtatAstar}
    (inv : Inva g dl dc depart arrivee ex s) (hex : ∀ p, ¬ ex p) :
    ∀ (n : Nat) (z : Pos), AtteintEn g dl dc depart z n →
      (∃ w, w ≤ n ∧ s.cout_g z = some w) ∨
      (∃ e ∈ s.ouverte, e.1 ≤ n + heuristique z arrivee) := by
  intro n
  induction n with
  | zero =>
      intro z hz
      obtain rfl := atteint_zero_eq hz
      exact Or.inl ⟨0, le_refl 0, inv.depart_zero⟩
  | succ n ih =>
      intro z hz
      obtain ⟨y, hy, hyz⟩ := atteint_succ hz
      have hcons := heuristique_consistante arrivee hyz
      rcases ih y hy with ⟨w, hwle, hw⟩ | ⟨e, he, hle⟩
      · rcases inv.relax y w hw (hex y) with ⟨e, he, -, hle⟩ | hrel
        · exact Or.inr ⟨e, he, by omega⟩
        · obtain ⟨w', hw', hle'⟩ := hrel z hyz
          exact Or.inl ⟨w', by omega, hw'⟩
      · exact Or.inr ⟨e, he, by omega⟩

/-- The cost stored for a popped cell is optimal: no walk from the start to
that cell is shorter. -/
theorem pop_optimal {g : Grille} {dl dc : Int → Option String}
    {depart arrivee : Pos} {ex : Pos → Prop} {s : EtatAstar} {f : Nat} {c : Pos}
    {r : List Entree} (inv : Inva g dl dc depart arrivee ex s)
    (hex : ∀ p, ¬ ex p) (hpop : heapPop s.ouverte = some ((f, c), r)) :
    ∃ v, s.cout_g c = some v ∧
      ∀ n, AtteintEn g dl dc depart c n → v ≤ n := by
  obtain ⟨hmem, hmin, -, -⟩ := heapPop_spec hpop
  obtain ⟨v, hv, hvb⟩ := inv.ouverte_bornee (f, c) hmem
  have hvb' : v + heuristique c arrivee ≤ f := hvb
  refine ⟨v, hv, ?_⟩
  intro n hn
  rcases inva_cle inv hex n c hn with ⟨w, hwle, hw⟩ | ⟨e, he, hle⟩
  · rw [hv] at hw
    injection hw with hw
    omega
  · have hfle := entreeLe_fst (hmin e he)
    omega

/-! ### Relaxation-step characterization -/

theorem majDict_meme {α : Type} (m : Pos → Option α) (k : Pos) (val : α) :
    majDict m k val k = some val := by
  unfold majDict
  simp

theorem majDict_autre {α : Type} (m : Pos → Option α) (k : Pos) (val : α)
    (p : Pos) (h : p ≠ k) : majDict m k val p = m p := by
  unfold majDict
  simp [h]

theorem direction_unique {c q : Pos} {d d' : Int × Int}
    (h : q = (c.1 + d.1, c.2 + d.2)) (h' : q = (c.1 + d'.1, c.2 + d'.2)) :
    d = d' := by
  cases d
  cases d'
  rw [h] at h'
  simp only [Prod.mk.injEq] at h' ⊢
  omega

theorem arete_via {g : Grille} {dl dc : Int → Option String} {c q : Pos}
    {d : Int × Int} (hq : q = (c.1 + d.1, c.2 + d.2))
    (ha : Arete g dl dc c q) :
    dansLimites g q ∧ lireCase g q = ROUTE ∧
      deplacement_autorise dl dc c d = true := by
  obtain ⟨d', hd', hq', h1, h2, h3⟩ := ha
  obtain rfl := direction_unique hq hq'
  exact ⟨h1, h2, h3⟩

theorem voisin_distinct {c : Pos} {d : Int × Int}
    (hd : d ∈ cardinal_directions) : ((c.1 + d.1, c.2 + d.2) : Pos) ≠ c := by
  unfold cardinal_directions at hd
  simp only [List.mem_cons, List.mem_singleton, List.not_mem_nil, or_false]
    at hd
  intro heq
  rw [Prod.ext_iff] at heq
  simp only at heq
  rcases hd with rfl | rfl | rfl | rfl <;> omega

/-- What one neighbour-relaxation step does: either it leaves the state alone
(and then, when the direction's edge exists, the neighbour's stored cost is
already at most `v + 1`), or the edge exists, the neighbour's cost strictly
improves to `v + 1`, and the state is exactly the push/update record. -/
theorem pasVoisin_resultat (g : Grille) (dl dc : Int → Option String)
    (arrivee c : Pos) (s : EtatAstar) (d : Int × Int) (v : Nat)
    (hc : s.cout_g c = some v) :
    (pasVoisin g dl dc arrivee c s d = s ∧
      (∀ q, q = (c.1 + d.1, c.2 + d.2) → Arete g dl dc c q →
        ∃ w, s.cout_g q = some w ∧ w ≤ v + 1)) ∨
    (Arete g dl dc c (c.1 + d.1, c.2 + d.2) ∧
      (∀ w, s.cout_g (c.1 + d.1, c.2 + d.2) = some w → v + 1 < w) ∧
      pasVoisin g dl dc arrivee c s d =
        { ouverte := s.ouverte ++
            [(v + 1 + heuristique (c.1 + d.1, c.2 + d.2) arrivee,
              (c.1 + d.1, c.2 + d.2))],
          cout_g := majDict s.cout_g (c.1 + d.1, c.2 + d.2) (v + 1),
          precedent := majDict s.precedent (c.1 + d.1, c.2 + d.2) c }) := by
  have hdmem : d ∈ cardinal_directions ∨ d ∉ cardinal_directions := em _
  unfold pasVoisin
  by_cases hguard : (decide (dansLimites g (c.1 + d.1, c.2 + d.2)) &&
      decide (lireCase g (c.1 + d.1, c.2 + d.2) = ROUTE) &&
      deplacement_autorise dl dc c d) = true
  · rw [if_pos hguard]
    obtain ⟨⟨hb1, hb2⟩, hb3⟩ :
        (decide (dansLimites g (c.1 + d.1, c.2 + d.2)) = true ∧
          decide (lireCase g (c.1 + d.1, c.2 + d.2) = ROUTE) = true) ∧
          deplacement_autorise dl dc c d = true := by
      rw [Bool.and_eq_true, Bool.and_eq_true] at hguard
      exact hguard
    have hinb := of_decide_eq_true hb1
    have hroute := of_decide_eq_true hb2
    have hncout : (s.cout_g c).getD 0 + 1 = v + 1 := by rw [hc]; rfl
    cases hv : s.cout_g (c.1 + d.1, c.2 + d.2) with
    | some ancien =>
        dsimp only
        by_cases himp : (s.cout_g c).getD 0 + 1 < ancien
        · rw [if_pos himp]
          rcases hdmem with hdmem | hdmem
          · refine Or.inr ⟨⟨d, hdmem, rfl, hinb, hroute, hb3⟩, ?_, ?_⟩
            · intro w hw
              injection hw with hw
              omega
            · rw [hncout]
          · exfalso
            -- a guard-true step always has d among the four directions
            unfold deplacement_autorise at hb3
            revert hb3
            split
            · intro hb3
              have := of_decide_eq_true hb3
              apply hdmem
              unfold cardinal_directions
              rcases this with ⟨-, h1⟩ | ⟨-, h1⟩ <;>
                · cases d
                  simp only at h1 ⊢
                  subst h1
                  simp_all
            · split
              · intro hb3
                have := of_decide_eq_true hb3
                apply hdmem
                unfold cardinal_directions
                rcases this with ⟨-, h1⟩ | ⟨-, h1⟩ <;>
                  · cases d
                    simp only at h1 ⊢
                    subst h1
                    simp_all
              · intro hb3
                cases hb3
        · rw [if_neg himp]
          refine Or.inl ⟨rfl, ?_⟩
          intro q hq _
          rw [hq, hv]
          exact ⟨ancien, rfl, by omega⟩
    | none =>
        dsimp only
        rcases hdmem with hdmem | hdmem
        · refine Or.inr ⟨⟨d, hdmem, rfl, hinb, hroute, hb3⟩, ?_, ?_⟩
          · intro w hw
            exact Option.noConfusion hw
          · rw [hncout]
        · exfalso
          unfold deplacement_autorise at hb3
          revert hb3
          split
          · intro hb3
            have := of_decide_eq_true hb3
            apply hdmem
            unfold cardinal_directions
            rcases this with ⟨-, h1⟩ | ⟨-, h1⟩ <;>
              · cases d
                simp only at h1 ⊢
                subst h1
                simp_all
          · split
            · intro hb3
              have := of_decide_eq_true hb3
              apply hdmem
              unfold cardinal_directions
              rcases this with ⟨-, h1⟩ | ⟨-, h1⟩ <;>
                · cases d
                  simp only at h1 ⊢
                  subst h1
                  simp_all
            · intro hb3
              cases hb3
  · rw [if_neg hguard]
    refine Or.inl ⟨rfl, ?_⟩
    intro q hq ha
    exfalso
    obtain ⟨h1, h2, h3⟩ := arete_via hq ha
    rw [hq] at h1 h2
    apply hguard
    rw [Bool.and_eq_true, Bool.and_eq_true]
    exact ⟨⟨decide_eq_true h1, decide_eq_true h2⟩, h3⟩

/-! ### Preservation of the invariant across one loop iteration -/

/-- Popping a non-goal cell preserves the invariant, with the popped cell
temporarily exempt from the relaxation obligation. -/
theorem inva_pop {g : Grille} {dl dc : Int → Option String}
    {depart arrivee : Pos} {s : EtatAstar} {f : Nat} {c : Pos}
    {r : List Entree} (inv : Inva g dl dc depart arrivee (fun _ => False) s)
    (hpop : heapPop s.ouverte = some ((f, c), r)) (hca : c ≠ arrivee) :
    Inva g dl dc depart arrivee (fun p => p = c) { s with ouverte := r } := by
  obtain ⟨hmem, hmin, hr, -⟩ := heapPop_spec hpop
  refine ⟨inv.depart_zero, inv.prec_depart, inv.marche, ?_, ?_, inv.prec_arete,
    inv.inb, ?_⟩
  · intro e he
    exact inv.ouverte_bornee e (List.mem_of_mem_erase (hr ▸ he))
  · intro p v hv hpc
    rcases inv.relax p v hv (fun h => h) with ⟨e, he, hsnd, hle⟩ | hrel
    · left
      refine ⟨e, ?_, hsnd, hle⟩
      show e ∈ r
      rw [hr]
      refine (List.mem_erase_of_ne ?_).mpr he
      intro heq
      apply hpc
      rw [← hsnd, heq]
    · exact Or.inr hrel
  · intro v hv
    obtain ⟨e, he, hsnd⟩ := inv.arr_ouverte v hv
    refine ⟨e, ?_, hsnd⟩
    show e ∈ r
    rw [hr]
    refine (List.mem_erase_of_ne ?_).mpr he
    intro heq
    apply hca
    rw [← hsnd, heq]

/-- A strictly improving relaxation of a neighbour `voisin` of the popped
cell `c` preserves the invariant (with `c` still exempt). -/
theorem inva_maj {g : Grille} {dl dc : Int → Option String}
    {depart arrivee c : Pos} {s : EtatAstar} {v : Nat} {voisin : Pos}
    (inv : Inva g dl dc depart arrivee (fun p => p = c) s)
    (hc : s.cout_g c = some v)
    (harete : Arete g dl dc c voisin)
    (himpr : ∀ w, s.cout_g voisin = some w → v + 1 < w) :
    Inva g dl dc depart arrivee (fun p => p = c)
      { ouverte := s.ouverte ++ [(v + 1 + heuristique voisin arrivee, voisin)],
        cout_g := majDict s.cout_g voisin (v + 1),
        precedent := majDict s.precedent voisin c } := by
  have hvc : voisin ≠ c := by
    obtain ⟨d, hd, rfl, -, -, -⟩ := harete
    exact voisin_distinct hd
  have hvdep : voisin ≠ depart := by
    intro heq
    have := himpr 0 (by rw [heq]; exact inv.depart_zero)
    omega
  refine ⟨?_, ?_, ?_, ?_, ?_, ?_, ?_, ?_⟩
  · show majDict s.cout_g voisin (v + 1) depart = some 0
    rw [majDict_autre _ _ _ _ (Ne.symm hvdep)]
    exact inv.depart_zero
  · show majDict s.precedent voisin c depart = none
    rw [majDict_autre _ _ _ _ (Ne.symm hvdep)]
    exact inv.prec_depart
  · intro p w hw
    replace hw : majDict s.cout_g voisin (v + 1) p = some w := hw
    by_cases hp : p = voisin
    · subst hp
      rw [majDict_meme] at hw
      injection hw with hw
      rw [← hw]
      exact atteint_snoc (inv.marche c v hc) harete
    · rw [majDict_autre _ _ _ _ hp] at hw
      exact inv.marche p w hw
  · intro e he
    rcases List.mem_append.mp he with he | he
    · obtain ⟨w, hw, hwb⟩ := inv.ouverte_bornee e he
      by_cases hp : e.2 = voisin
      · have himp := himpr w (by rw [← hp]; exact hw)
        refine ⟨v + 1, ?_, by omega⟩
        show majDict s.cout_g voisin (v + 1) e.2 = some (v + 1)
        rw [hp]
        exact majDict_meme _ _ _
      · refine ⟨w, ?_, hwb⟩
        show majDict s.cout_g voisin (v + 1) e.2 = some w
        rw [majDict_autre _ _ _ _ hp]
        exact hw
    · rw [List.mem_singleton] at he
      subst he
      exact ⟨v + 1, majDict_meme _ _ _, le_refl _⟩
  · intro p w hw hex
    replace hw : majDict s.cout_g voisin (v + 1) p = some w := hw
    by_cases hp : p = voisin
    · subst hp
      rw [majDict_meme] at hw
      injection hw with hw
      left
      refine ⟨(v + 1 + heuristique p arrivee, p),
        List.mem_append_right _ (List.mem_singleton_self _), rfl, by omega⟩
    · rw [majDict_autre _ _ _ _ hp] at hw
      rcases inv.relax p w hw hex with ⟨e, he, hsnd, hle⟩ | hrel
      · exact Or.inl ⟨e, List.mem_append_left _ he, hsnd, hle⟩
      · right
        intro q hq
        obtain ⟨w2, hw2, hle2⟩ := hrel q hq
        by_cases hq2 : q = voisin
        · subst hq2
          have := himpr w2 hw2
          exact ⟨v + 1, majDict_meme _ _ _, by omega⟩
        · refine ⟨w2, ?_, hle2⟩
          show majDict s.cout_g voisin (v + 1) q = some w2
          rw [majDict_autre _ _ _ _ hq2]
          exact hw2
  · intro p w hw hpdep
    replace hw : majDict s.cout_g voisin (v + 1) p = some w := hw
    by_cases hp : p = voisin
    · subst hp
      rw [majDict_meme] at hw
      injection hw with hw
      refine ⟨c, v, majDict_meme _ _ _, harete, ?_, by omega⟩
      show majDict s.cout_g p (v + 1) c = some v
      rw [majDict_autre _ _ _ _ (Ne.symm hvc)]
      exact hc
    · rw [majDict_autre _ _ _ _ hp] at hw
      obtain ⟨q, w2, hprec, haq, hq, hlt⟩ := inv.prec_arete p w hw hpdep
      have hprec2 : majDict s.precedent voisin c p = some q := by
        rw [majDict_autre _ _ _ _ hp]
        exact hprec
      by_cases hq2 : q = voisin
      · subst hq2
        have := himpr w2 hq
        exact ⟨q, v + 1, hprec2, haq, majDict_meme _ _ _, by omega⟩
      · refine ⟨q, w2, hprec2, haq, ?_, hlt⟩
        show majDict s.cout_g voisin (v + 1) q = some w2
        rw [majDict_autre _ _ _ _ hq2]
        exact hq
  · intro p hp
    replace hp : (majDict s.cout_g voisin (v + 1) p).isSome = true := hp
    by_cases hpv : p = voisin
    · subst hpv
      exact arete_inb harete
    · rw [majDict_autre _ _ _ _ hpv] at hp
      exact inv.inb p hp
  · intro w hw
    replace hw : majDict s.cout_g voisin (v + 1) arrivee = some w := hw
    by_cases hav : arrivee = voisin
    · exact ⟨(v + 1 + heuristique voisin arrivee, voisin),
        List.mem_append_right _ (List.mem_singleton_self _), hav.symm⟩
    · rw [majDict_autre _ _ _ _ hav] at hw
      obtain ⟨e, he, hsnd⟩ := inv.arr_ouverte w hw
      exact ⟨e, List.mem_append_left _ he, hsnd⟩

/-- One relaxation step preserves the invariant, keeps the popped cell's cost,
never increases any stored cost, and relaxes its own direction's edge. -/
theorem pasVoisin_inv (d : Int × Int) {g : Grille} {dl dc : Int → Option String}
    {depart arrivee c : Pos} {s : EtatAstar} {v : Nat}
    (inv : Inva g dl dc depart arrivee (fun p => p = c) s)
    (hc : s.cout_g c = some v) :
    Inva g dl dc depart arrivee (fun p => p = c)
        (pasVoisin g dl dc arrivee c s d) ∧
      (pasVoisin g dl dc arrivee c s d).cout_g c = some v ∧
      (∀ p w, s.cout_g p = some w →
        ∃ w2, w2 ≤ w ∧ (pasVoisin g dl dc arrivee c s d).cout_g p = some w2) ∧
      (∀ q, q = (c.1 + d.1, c.2 + d.2) → Arete g dl dc c q →
        ∃ w, (pasVoisin g dl dc arrivee c s d).cout_g q = some w ∧ w ≤ v + 1) := by
  rcases pasVoisin_resultat g dl dc arrivee c s d v hc with ⟨heq, hrel⟩ |
    ⟨harete, himpr, heq⟩
  · rw [heq]
    exact ⟨inv, hc, fun p w hw => ⟨w, le_refl w, hw⟩, hrel⟩
  · have hvc : ((c.1 + d.1, c.2 + d.2) : Pos) ≠ c := by
      obtain ⟨d2, hd2, heq2, -, -, -⟩ := harete
      obtain rfl := direction_unique rfl heq2
      exact voisin_distinct hd2
    rw [heq]
    refine ⟨inva_maj inv hc harete himpr, ?_, ?_, ?_⟩
    · show majDict s.cout_g (c.1 + d.1, c.2 + d.2) (v + 1) c = some v
      rw [majDict_autre _ _ _ _ (Ne.symm hvc)]
      exact hc
    · intro p w hw
      by_cases hp : p = (c.1 + d.1, c.2 + d.2)
      · subst hp
        have := himpr w hw
        exact ⟨v + 1, by omega, majDict_meme _ _ _⟩
      · refine ⟨w, le_refl w, ?_⟩
        show majDict s.cout_g (c.1 + d.1, c.2 + d.2) (v + 1) p = some w
        rw [majDict_autre _ _ _ _ hp]
        exact hw
    · intro q hq _
      subst hq
      exact ⟨v + 1, majDict_meme _ _ _, le_refl _⟩

/-- Expanding all four neighbours of the popped cell preserves the invariant,
keeps the popped cell's cost, and relaxes every out-edge of the popped cell. -/
theorem etendre_inv {g : Grille} {dl dc : Int → Option String}
    {depart arrivee c : Pos} {s : EtatAstar} {v : Nat}
    (inv : Inva g dl dc depart arrivee (fun p => p = c) s)
    (hc : s.cout_g c = some v) :
    Inva g dl dc depart arrivee (fun p => p = c)
        (etendre g dl dc arrivee c s) ∧
      (etendre g dl dc arrivee c s).cout_g c = some v ∧
      (∀ q, Arete g dl dc c q →
        ∃ w, (etendre g dl dc arrivee c s).cout_g q = some w ∧ w ≤ v + 1) := by
  obtain ⟨i1, c1, m1, r1⟩ := pasVoisin_inv (0, 1) inv hc
  obtain ⟨i2, c2, m2, r2⟩ := pasVoisin_inv (0, -1) i1 c1
  obtain ⟨i3, c3, m3, r3⟩ := pasVoisin_inv (1, 0) i2 c2
  obtain ⟨i4, c4, m4, r4⟩ := pasVoisin_inv (-1, 0) i3 c3
  have hunfold : etendre g dl dc arrivee c s =
      pasVoisin g dl dc arrivee c
        (pasVoisin g dl dc arrivee c
          (pasVoisin g dl dc arrivee c
            (pasVoisin g dl dc arrivee c s (0, 1)) (0, -1)) (1, 0)) (-1, 0) :=
    rfl
  rw [hunfold]
  refine ⟨i4, c4, ?_⟩
  intro q haq
  have haq2 := haq
  obtain ⟨d, hd, hq, -, -, -⟩ := haq2
  unfold cardinal_directions at hd
  simp only [List.mem_cons, List.not_mem_nil, or_false] at hd
  rcases hd with rfl | rfl | rfl | rfl
  · obtain ⟨w, hw, hwb⟩ := r1 q hq haq
    obtain ⟨w2, hle2, hw2⟩ := m2 q w hw
    obtain ⟨w3, hle3, hw3⟩ := m3 q w2 hw2
    obtain ⟨w4, hle4, hw4⟩ := m4 q w3 hw3
    exact ⟨w4, hw4, by omega⟩
  · obtain ⟨w, hw, hwb⟩ := r2 q hq haq
    obtain ⟨w3, hle3, hw3⟩ := m3 q w hw
    obtain ⟨w4, hle4, hw4⟩ := m4 q w3 hw3
    exact ⟨w4, hw4, by omega⟩
  · obtain ⟨w, hw, hwb⟩ := r3 q hq haq
    obtain ⟨w4, hle4, hw4⟩ := m4 q w hw
    exact ⟨w4, hw4, by omega⟩
  · obtain ⟨w, hw, hwb⟩ := r4 q hq haq
    exact ⟨w, hw, hwb⟩

/-- Discharging the exemption: once every out-edge of the exempt cell is
relaxed, the unrestricted invariant holds again. -/
theorem inva_restaure {g : Grille} {dl dc : Int → Option String}
    {depart arrivee c : Pos} {s : EtatAstar} {v : Nat}
    (inv : Inva g dl dc depart arrivee (fun p => p = c) s)
    (hc : s.cout_g c = some v)
    (hrel : ∀ q, Arete g dl dc c q → ∃ w, s.cout_g q = some w ∧ w ≤ v + 1) :
    Inva g dl dc depart arrivee (fun _ => False) s := by
  refine ⟨inv.depart_zero, inv.prec_depart, inv.marche, inv.ouverte_bornee,
    ?_, inv.prec_arete, inv.inb, inv.arr_ouverte⟩
  intro p w hw hnf
  by_cases hp : p = c
  · subst hp
    right
    rw [hc] at hw
    injection hw with hw
    subst hw
    exact hrel
  · exact inv.relax p w hw hp

/-- One full iteration of the A* loop body (pop a non-goal cell, expand it)
preserves the unrestricted invariant. -/
theorem iteration_inv {g : Grille} {dl dc : Int → Option String}
    {depart arrivee : Pos} {s : EtatAstar} {f : Nat} {c : Pos}
    {r : List Entree} (inv : Inva g dl dc depart arrivee (fun _ => False) s)
    (hpop : heapPop s.ouverte = some ((f, c), r)) (hca : c ≠ arrivee) :
    Inva g dl dc depart arrivee (fun _ => False)
      (etendre g dl dc arrivee c { s with ouverte := r }) := by
  have hpop1 := inva_pop inv hpop hca
  obtain ⟨hmem, -, -, -⟩ := heapPop_spec hpop
  obtain ⟨v, hv, -⟩ := inv.ouverte_bornee (f, c) hmem
  have hv2 : ({ s with ouverte := r } : EtatAstar).cout_g c = some v := hv
  obtain ⟨ifin, cfin, hrel⟩ := etendre_inv hpop1 hv2
  exact inva_restaure ifin cfin hrel

/-! ### The termination measure decreases -/

theorem sommeCouts_maj {g : Grille} (cg : Pos → Option Nat) {k : Pos}
    (hk : k ∈ cellules g) (v : Nat) :
    sommeCouts g (majDict cg k v) + poidsCout g (cg k) =
      sommeCouts g cg + v := by
  unfold sommeCouts
  have hsame : ∑ p ∈ (cellules g).erase k, poidsCout g (majDict cg k v p) =
      ∑ p ∈ (cellules g).erase k, poidsCout g (cg p) := by
    refine Finset.sum_congr rfl ?_
    intro p hp
    rw [majDict_autre _ _ _ _ (Finset.ne_of_mem_erase hp)]
  rw [← Finset.add_sum_erase _ _ hk, ← Finset.add_sum_erase _ _ hk, hsame,
    majDict_meme]
  have hval : poidsCout g (some v) = v := rfl
  rw [hval]
  omega

theorem pasVoisin_garde (g : Grille) (dl dc : Int → Option String)
    (arrivee c : Pos) (s : EtatAstar) (d : Int × Int) {v : Nat}
    (hc : s.cout_g c = some v) :
    (pasVoisin g dl dc arrivee c s d).cout_g c = some v := by
  rcases pasVoisin_resultat g dl dc arrivee c s d v hc with ⟨heq, -⟩ |
    ⟨harete, -, heq⟩
  · rw [heq]
    exact hc
  · have hvc : ((c.1 + d.1, c.2 + d.2) : Pos) ≠ c := by
      obtain ⟨d2, hd2, heq2, -, -, -⟩ := harete
      obtain rfl := direction_unique rfl heq2
      exact voisin_distinct hd2
    rw [heq]
    show majDict s.cout_g (c.1 + d.1, c.2 + d.2) (v + 1) c = some v
    rw [majDict_autre _ _ _ _ (Ne.symm hvc)]
    exact hc

theorem pasVoisin_phi (g : Grille) (dl dc : Int → Option String)
    (arrivee c : Pos) (s : EtatAstar) (d : Int × Int) {v : Nat}
    (hc : s.cout_g c = some v) (hvb : v + 1 < borneCout g) :
    phiMesure g (pasVoisin g dl dc arrivee c s d) ≤ phiMesure g s := by
  rcases pasVoisin_resultat g dl dc arrivee c s d v hc with ⟨heq, -⟩ |
    ⟨harete, himpr, heq⟩
  · rw [heq]
  · rw [heq]
    have hkc : ((c.1 + d.1, c.2 + d.2) : Pos) ∈ cellules g :=
      noeuds_dans_cellules (arete_inb harete)
    have hsum := sommeCouts_maj s.cout_g hkc (v + 1)
    have hpoids : v + 2 ≤ poidsCout g (s.cout_g (c.1 + d.1, c.2 + d.2)) := by
      cases hslot : s.cout_g (c.1 + d.1, c.2 + d.2) with
      | none =>
          show v + 2 ≤ borneCout g
          omega
      | some w =>
          have := himpr w hslot
          show v + 2 ≤ w
          omega
    unfold phiMesure
    show 2 * sommeCouts g (majDict s.cout_g (c.1 + d.1, c.2 + d.2) (v + 1)) +
        (s.ouverte ++
          [(v + 1 + heuristique (c.1 + d.1, c.2 + d.2) arrivee,
            (c.1 + d.1, c.2 + d.2))]).length ≤
      2 * sommeCouts g s.cout_g + s.ouverte.length
    rw [List.length_append, List.length_singleton]
    omega

theorem etendre_phi (g : Grille) (dl dc : Int → Option String)
    (arrivee c : Pos) (s : EtatAstar) {v : Nat}
    (hc : s.cout_g c = some v) (hvb : v + 1 < borneCout g) :
    phiMesure g (etendre g dl dc arrivee c s) ≤ phiMesure g s := by
  have p1 := pasVoisin_phi g dl dc arrivee c s (0, 1) hc hvb
  have c1 := pasVoisin_garde g dl dc arrivee c s (0, 1) hc
  have p2 := pasVoisin_phi g dl dc arrivee c _ (0, -1) c1 hvb
  have c2 := pasVoisin_garde g dl dc arrivee c _ (0, -1) c1
  have p3 := pasVoisin_phi g dl dc arrivee c _ (1, 0) c2 hvb
  have c3 := pasVoisin_garde g dl dc arrivee c _ (1, 0) c2
  have p4 := pasVoisin_phi g dl dc arrivee c _ (-1, 0) c3 hvb
  have hunfold : etendre g dl dc arrivee c s =
      pasVoisin g dl dc arrivee c
        (pasVoisin g dl dc arrivee c
          (pasVoisin g dl dc arrivee c
            (pasVoisin g dl dc arrivee c s (0, 1)) (0, -1)) (1, 0)) (-1, 0) :=
    rfl
  rw [hunfold]
  omega

theorem phi_pop (g : Grille) {s : EtatAstar} {m : Entree} {r : List Entree}
    (h : heapPop s.ouverte = some (m, r)) :
    phiMesure g { s with ouverte := r } + 1 = phiMesure g s := by
  obtain ⟨-, -, -, hlen⟩ := heapPop_spec h
  unfold phiMesure
  show 2 * sommeCouts g s.cout_g + r.length + 1 =
    2 * sommeCouts g s.cout_g + s.ouverte.length
  omega

/-- One full iteration of the A* loop body strictly decreases the measure. -/
theorem iteration_phi {g : Grille} {dl dc : Int → Option String}
    {depart arrivee : Pos} {s : EtatAstar} {f : Nat} {c : Pos}
    {r : List Entree} (inv : Inva g dl dc depart arrivee (fun _ => False) s)
    (hpop : heapPop s.ouverte = some ((f, c), r)) :
    phiMesure g (etendre g dl dc arrivee c { s with ouverte := r }) <
      phiMesure g s := by
  obtain ⟨hmem, -, -, -⟩ := heapPop_spec hpop
  obtain ⟨v, hv, -⟩ := inv.ouverte_bornee (f, c) hmem
  have hdepinb : dansLimites g depart :=
    inv.inb depart (by rw [inv.depart_zero]; rfl)
  obtain ⟨m2, hm2, hwm⟩ := atteint_borne hdepinb (inv.marche c v hv)
  obtain ⟨v2, hv2, hopt⟩ := pop_optimal inv (fun p h => h) hpop
  rw [hv] at hv2
  injection hv2 with hv2
  subst hv2
  have hvm := hopt m2 hwm
  have hvb : v + 1 < borneCout g := by
    unfold borneCout
    omega
  have hv3 : ({ s with ouverte := r } : EtatAstar).cout_g c = some v := hv
  have hstep := etendre_phi g dl dc arrivee c _ hv3 hvb
  have hpp := phi_pop g hpop
  omega

/-! ### Reconstruction correctness -/

theorem reconstruire_succ (prec : Pos → Option Pos) (n : Nat) (p : Pos) :
    reconstruire prec (n + 1) p =
      p :: (match prec p with
            | none => []
            | some q => reconstruire prec n q) := rfl

/-- Following the parent pointers from any costed cell yields (in reverse) a
walk from the start of length at most the stored cost, whatever sufficient
fuel is used. -/
theorem reconstruire_correct {g : Grille} {dl dc : Int → Option String}
    {depart arrivee : Pos} {ex : Pos → Prop} {s : EtatAstar}
    (inv : Inva g dl dc depart arrivee ex s) :
    ∀ v p, s.cout_g p = some v →
      ∃ k l', k ≤ v ∧ List.Chain (Arete g dl dc) depart l' ∧
        l'.length = k ∧ (depart :: l').getLast? = some p ∧
        ∀ fuel, v + 1 ≤ fuel →
          reconstruire s.precedent fuel p = (depart :: l').reverse := by
  intro v
  induction v using Nat.strong_induction_on with
  | _ v ih =>
      intro p hp
      by_cases hpd : p = depart
      · subst hpd
        have h0 := inv.depart_zero
        rw [hp] at h0
        injection h0 with h0
        subst h0
        refine ⟨0, [], le_refl 0, List.Chain.nil, rfl, rfl, ?_⟩
        intro fuel hf
        cases fuel with
        | zero => omega
        | succ n =>
            rw [reconstruire_succ, inv.prec_depart]
            rfl
      · obtain ⟨q, w, hprec, harete, hq, hlt⟩ := inv.prec_arete p v hp hpd
        obtain ⟨k, l', hk, hchain, hlen, hlast, hfuel⟩ := ih w hlt q hq
        refine ⟨k + 1, l' ++ [p], by omega,
          chain_snoc l' depart q p hchain hlast harete, by simp [hlen], ?_, ?_⟩
        · rw [show depart :: (l' ++ [p]) = (depart :: l') ++ [p] from rfl,
            List.getLast?_concat]
        · intro fuel hf
          cases fuel with
          | zero => omega
          | succ n =>
              have hn : w + 1 ≤ n := by omega
              rw [reconstruire_succ, hprec]
              show p :: reconstruire s.precedent n q = _
              rw [hfuel n hn,
                show depart :: (l' ++ [p]) = (depart :: l') ++ [p] from rfl,
                List.reverse_append]
              rfl

/-! ### Bridges between the code-side walk relation and the spec-side routes -/

theorem arete_paslegal {g : Grille} {dl dc : Int → Option String} {a b : Pos} :
    Arete g dl dc a b ↔ (PasLegalSpec dl dc a b ∧ CaseRoute g b) := by
  constructor
  · rintro ⟨d, hd, rfl, hinb, hroute, haut⟩
    refine ⟨?_, hinb, hroute⟩
    unfold cardinal_directions at hd
    simp only [List.mem_cons, List.not_mem_nil, or_false] at hd
    unfold PasLegalSpec
    rcases hd with rfl | rfl | rfl | rfl
    · unfold deplacement_autorise at haut
      rw [if_neg (by decide), if_pos (by decide)] at haut
      rcases of_decide_eq_true haut with ⟨hdc, -⟩ | ⟨-, habs⟩
      · exact Or.inr ⟨by show a.1 + 0 = a.1; omega,
          Or.inl ⟨by show a.2 + 1 = a.2 + 1; rfl, hdc⟩⟩
      · exact absurd habs (by decide)
    · unfold deplacement_autorise at haut
      rw [if_neg (by decide), if_pos (by decide)] at haut
      rcases of_decide_eq_true haut with ⟨-, habs⟩ | ⟨hdc, -⟩
      · exact absurd habs (by decide)
      · exact Or.inr ⟨by show a.1 + 0 = a.1; omega,
          Or.inr ⟨by show a.2 + -1 = a.2 - 1; omega, hdc⟩⟩
    · unfold deplacement_autorise at haut
      rw [if_pos (by decide)] at haut
      rcases of_decide_eq_true haut with ⟨hdl, -⟩ | ⟨-, habs⟩
      · exact Or.inl ⟨by show a.2 + 0 = a.2; omega,
          Or.inl ⟨by show a.1 + 1 = a.1 + 1; rfl, hdl⟩⟩
      · exact absurd habs (by decide)
    · unfold deplacement_autorise at haut
      rw [if_pos (by decide)] at haut
      rcases of_decide_eq_true haut with ⟨-, habs⟩ | ⟨hdl, -⟩
      · exact absurd habs (by decide)
      · exact Or.inl ⟨by show a.2 + 0 = a.2; omega,
          Or.inr ⟨by show a.1 + -1 = a.1 - 1; omega, hdl⟩⟩
  · rintro ⟨hleg, hinb, hroute⟩
    unfold PasLegalSpec at hleg
    rcases hleg with ⟨hb2, ⟨hb1, hpol⟩ | ⟨hb1, hpol⟩⟩ |
      ⟨hb1, ⟨hb2, hpol⟩ | ⟨hb2, hpol⟩⟩
    · have hb : b = (a.1 + 1, a.2 + 0) := by
        rw [Prod.ext_iff]
        exact ⟨by omega, by show b.2 = a.2 + 0; omega⟩
      refine ⟨(1, 0), by decide, hb, hb ▸ hinb, hb ▸ hroute, ?_⟩
      unfold deplacement_autorise
      rw [if_pos (by norm_num)]
      exact decide_eq_true (Or.inl ⟨hpol, rfl⟩)
    · have hb : b = (a.1 + -1, a.2 + 0) := by
        rw [Prod.ext_iff]
        exact ⟨by omega, by show b.2 = a.2 + 0; omega⟩
      refine ⟨(-1, 0), by decide, hb, hb ▸ hinb, hb ▸ hroute, ?_⟩
      unfold deplacement_autorise
      rw [if_pos (by norm_num)]
      exact decide_eq_true (Or.inr ⟨hpol, rfl⟩)
    · have hb : b = (a.1 + 0, a.2 + 1) := by
        rw [Prod.ext_iff]
        exact ⟨by omega, by omega⟩
      refine ⟨(0, 1), by decide, hb, hb ▸ hinb, hb ▸ hroute, ?_⟩
      unfold deplacement_autorise
      rw [if_neg (by norm_num), if_pos (by norm_num)]
      exact decide_eq_true (Or.inl ⟨hpol, rfl⟩)
    · have hb : b = (a.1 + 0, a.2 + -1) := by
        rw [Prod.ext_iff]
        exact ⟨by omega, by omega⟩
      refine ⟨(0, -1), by decide, hb, hb ▸ hinb, hb ▸ hroute, ?_⟩
      unfold deplacement_autorise
      rw [if_neg (by norm_num), if_pos (by norm_num)]
      exact decide_eq_true (Or.inr ⟨hpol, rfl⟩)

theorem chain_paslegal_arete {g : Grille} {dl dc : Int → Option String} :
    ∀ (l : List Pos) (a : Pos), List.Chain (PasLegalSpec dl dc) a l →
      (∀ p ∈ l, CaseRoute g p) → List.Chain (Arete g dl dc) a l := by
  intro l
  induction l with
  | nil => intro a _ _; exact List.Chain.nil
  | cons x l ih =>
      intro a hchain hroute
      cases hchain with
      | cons hax hxl =>
          refine List.Chain.cons
            (arete_paslegal.mpr ⟨hax, hroute x (List.mem_cons_self x l)⟩)
            (ih x hxl ?_)
          intro p hp
          exact hroute p (List.mem_cons_of_mem x hp)

theorem chain_arete_paslegal {g : Grille} {dl dc : Int → Option String}
    {l : List Pos} {a : Pos} (h : List.Chain (Arete g dl dc) a l) :
    List.Chain (PasLegalSpec dl dc) a l :=
  List.Chain.imp (fun _ _ hxy => (arete_paslegal.mp hxy).1) h

/-- A walk of the loop's edge relation is a spec-side route (given that the
start cell is Road). -/
theorem atteint_route {g : Grille} {dl dc : Int → Option String}
    {depart arrivee : Pos} {n : Nat} (hdep : CaseRoute g depart)
    (h : AtteintEn g dl dc depart arrivee n) :
    ∃ l, RouteSpecEntre g dl dc depart arrivee l ∧ l.length = n + 1 := by
  obtain ⟨l, hchain, hlen, hlast⟩ := h
  refine ⟨depart :: l, ⟨⟨List.cons_ne_nil _ _, ?_, ?_⟩, rfl, hlast⟩,
    by simp [hlen]⟩
  · intro p hp
    rcases List.mem_cons.mp hp with rfl | hp
    · exact hdep
    · have hpr := chain_noeuds l depart hchain p hp
      exact ⟨hpr.1, hpr.2⟩
  · show List.Chain (PasLegalSpec dl dc) depart l
    exact chain_arete_paslegal hchain

/-- Conversely, a spec-side route yields a walk of the loop's edge relation. -/
theorem route_atteint {g : Grille} {dl dc : Int → Option String}
    {depart arrivee : Pos} {l : List Pos}
    (h : RouteSpecEntre g dl dc depart arrivee l) :
    AtteintEn g dl dc depart arrivee (l.length - 1) ∧ 1 ≤ l.length := by
  obtain ⟨⟨hne, hcells, hchain⟩, hhead, hlast⟩ := h
  cases l with
  | nil => cases hhead
  | cons x xs =>
      injection hhead with hhead
      subst hhead
      refine ⟨⟨xs, ?_, ?_, ?_⟩, by simp⟩
      · refine chain_paslegal_arete xs x hchain ?_
        intro p hp
        exact hcells p (List.mem_cons_of_mem x hp)
      · show xs.length = (x :: xs).length - 1
        simp
      · exact hlast

/-! ### The A* loop: initial state, soundness, completeness -/

theorem inva_init {g : Grille} {dl dc : Int → Option String}
    (depart arrivee : Pos) (hdep : dansLimites g depart) :
    Inva g dl dc depart arrivee (fun _ => False)
      (etatInitial depart arrivee) := by
  refine ⟨?_, rfl, ?_, ?_, ?_, ?_, ?_, ?_⟩
  · show (if depart = depart then some 0 else none) = some 0
    rw [if_pos rfl]
  · intro p v hv
    replace hv : (if p = depart then some 0 else none) = some v := hv
    by_cases hp : p = depart
    · subst hp
      rw [if_pos rfl] at hv
      injection hv with hv
      rw [← hv]
      exact atteint_zero
    · rw [if_neg hp] at hv
      cases hv
  · intro e he
    replace he : e ∈ [(heuristique depart arrivee, depart)] := he
    rw [List.mem_singleton] at he
    subst he
    refine ⟨0, ?_, ?_⟩
    · show (if depart = depart then some 0 else none) = some 0
      rw [if_pos rfl]
    · show 0 + heuristique depart arrivee ≤ heuristique depart arrivee
      omega
  · intro p v hv hex
    left
    replace hv : (if p = depart then some 0 else none) = some v := hv
    by_cases hp : p = depart
    · subst hp
      rw [if_pos rfl] at hv
      injection hv with hv
      refine ⟨(heuristique p arrivee, p), List.mem_singleton_self _, rfl, ?_⟩
      omega
    · rw [if_neg hp] at hv
      cases hv
  · intro p v hv hpdep
    replace hv : (if p = depart then some 0 else none) = some v := hv
    rw [if_neg hpdep] at hv
    cases hv
  · intro p hp
    replace hp : (if p = depart then some 0 else none).isSome = true := hp
    by_cases hpd : p = depart
    · subst hpd
      exact hdep
    · rw [if_neg hpd] at hp
      cases hp
  · intro v hv
    replace hv : (if arrivee = depart then some 0 else none) = some v := hv
    by_cases had : arrivee = depart
    · exact ⟨(heuristique depart arrivee, depart), List.mem_singleton_self _,
        had.symm⟩
    · rw [if_neg had] at hv
      cases hv

theorem phi_init (g : Grille) (depart arrivee : Pos) :
    phiMesure g (etatInitial depart arrivee) < fuelSuffisant g := by
  have hsum : sommeCouts g (etatInitial depart arrivee).cout_g ≤
      (tailleX g * tailleY g) * ((tailleX g * tailleY g) + 1) := by
    unfold sommeCouts
    calc ∑ p ∈ cellules g, poidsCout g ((etatInitial depart arrivee).cout_g p)
        ≤ ∑ _p ∈ cellules g, borneCout g := by
          refine Finset.sum_le_sum ?_
          intro p hp
          show poidsCout g (if p = depart then some 0 else none) ≤ borneCout g
          by_cases hpd : p = depart
          · rw [if_pos hpd]
            show (0 : Nat) ≤ borneCout g
            omega
          · rw [if_neg hpd]
            exact le_refl _
      _ = (cellules g).card * borneCout g := by
          rw [Finset.sum_const, smul_eq_mul]
      _ ≤ (tailleX g * tailleY g) * borneCout g :=
          Nat.mul_le_mul_right _ (carte_cellules g)
      _ = (tailleX g * tailleY g) * ((tailleX g * tailleY g) + 1) := rfl
  unfold phiMesure fuelSuffisant
  have h2 : 2 * (tailleX g * tailleY g) * (tailleX g * tailleY g + 1) =
      2 * ((tailleX g * tailleY g) * ((tailleX g * tailleY g) + 1)) := by
    ring
  rw [h2]
  show 2 * sommeCouts g (etatInitial depart arrivee).cout_g +
      ([(heuristique depart arrivee, depart)] : List Entree).length <
    2 * ((tailleX g * tailleY g) * ((tailleX g * tailleY g) + 1)) + 2
  rw [List.length_singleton]
  omega

theorem boucle_zero (g : Grille) (dl dc : Int → Option String) (arrivee : Pos)
    (s : EtatAstar) :
    boucle g dl dc arrivee 0 s = ResA.carburantEpuise := rfl

theorem boucle_succ (g : Grille) (dl dc : Int → Option String) (arrivee : Pos)
    (fuel : Nat) (s : EtatAstar) :
    boucle g dl dc arrivee (fuel + 1) s =
      match heapPop s.ouverte with
      | none => ResA.aucunChemin
      | some ((_, courant), reste) =>
          if courant = arrivee then
            ResA.trouve
              ((reconstruire s.precedent
                ((s.cout_g courant).getD 0 + 1) courant).reverse)
          else
            boucle g dl dc arrivee fuel
              (etendre g dl dc arrivee courant { s with ouverte := reste }) :=
  rfl

theorem boucle_succ_none (g : Grille) (dl dc : Int → Option String)
    (arrivee : Pos) (fuel : Nat) (s : EtatAstar)
    (hpop : heapPop s.ouverte = none) :
    boucle g dl dc arrivee (fuel + 1) s = ResA.aucunChemin := by
  rw [boucle_succ, hpop]

theorem boucle_succ_some (g : Grille) (dl dc : Int → Option String)
    (arrivee : Pos) (fuel : Nat) (s : EtatAstar) (f : Nat) (c : Pos)
    (r : List Entree) (hpop : heapPop s.ouverte = some ((f, c), r)) :
    boucle g dl dc arrivee (fuel + 1) s =
      if c = arrivee then
        ResA.trouve
          ((reconstruire s.precedent ((s.cout_g c).getD 0 + 1) c).reverse)
      else
        boucle g dl dc arrivee fuel
          (etendre g dl dc arrivee c { s with ouverte := r }) := by
  rw [boucle_succ, hpop]

/-- Soundness of the loop: any returned list is `depart` followed by an
optimal-length walk to `arrivee`. -/
theorem boucle_trouve {g : Grille} {dl dc : Int → Option String}
    {depart arrivee : Pos} :
    ∀ (fuel : Nat) (s : EtatAstar) (l : List Pos),
      Inva g dl dc depart arrivee (fun _ => False) s →
      boucle g dl dc arrivee fuel s = ResA.trouve l →
      ∃ v l', AtteintEn g dl dc depart arrivee v ∧
        (∀ n, AtteintEn g dl dc depart arrivee n → v ≤ n) ∧
        List.Chain (Arete g dl dc) depart l' ∧ l'.length = v ∧
        (depart :: l').getLast? = some arrivee ∧ l = depart :: l' := by
  intro fuel
  induction fuel with
  | zero =>
      intro s l inv h
      rw [boucle_zero] at h
      cases h
  | succ fuel ih =>
      intro s l inv h
      cases hpop : heapPop s.ouverte with
      | none =>
          rw [boucle_succ_none g dl dc arrivee fuel s hpop] at h
          cases h
      | some pr =>
          obtain ⟨⟨f, c⟩, r⟩ := pr
          rw [boucle_succ_some g dl dc arrivee fuel s f c r hpop] at h
          by_cases hca : c = arrivee
          · rw [if_pos hca] at h
            subst hca
            obtain ⟨v, hv, hopt⟩ := pop_optimal inv (fun p hh => hh) hpop
            have hgetd : (s.cout_g c).getD 0 = v := by rw [hv]; rfl
            obtain ⟨k, l', hk, hchain, hlen, hlast, hfuel⟩ :=
              reconstruire_correct inv v c hv
            have hrec : reconstruire s.precedent ((s.cout_g c).getD 0 + 1) c =
                (depart :: l').reverse := by
              rw [hgetd]
              exact hfuel (v + 1) (le_refl _)
            rw [hrec] at h
            injection h with h
            have hwalk : AtteintEn g dl dc depart c k := ⟨l', hchain, hlen, hlast⟩
            have hvk := hopt k hwalk
            have hkv : k = v := le_antisymm hk hvk
            refine ⟨v, l', ?_, hopt, hchain, by omega, hlast, ?_⟩
            · rw [← hkv]
              exact hwalk
            · rw [← h, List.reverse_reverse]
          · rw [if_neg hca] at h
            exact ih _ l (iteration_inv inv hpop hca) h

/-- Completeness of the loop: the no-path answer is right. -/
theorem boucle_aucun {g : Grille} {dl dc : Int → Option String}
    {depart arrivee : Pos} :
    ∀ (fuel : Nat) (s : EtatAstar),
      Inva g dl dc depart arrivee (fun _ => False) s →
      boucle g dl dc arrivee fuel s = ResA.aucunChemin →
      ∀ n, ¬ AtteintEn g dl dc depart arrivee n := by
  intro fuel
  induction fuel with
  | zero =>
      intro s inv h
      rw [boucle_zero] at h
      cases h
  | succ fuel ih =>
      intro s inv h n hatteint
      cases hpop : heapPop s.ouverte with
      | none =>
          have hvide := heapPop_vide hpop
          rcases inva_cle inv (fun p hh => hh) n arrivee hatteint with
            ⟨w, -, hw⟩ | ⟨e, he, -⟩
          · obtain ⟨e, he, -⟩ := inv.arr_ouverte w hw
            rw [hvide] at he
            cases he
          · rw [hvide] at he
            cases he
      | some pr =>
          obtain ⟨⟨f, c⟩, r⟩ := pr
          rw [boucle_succ_some g dl dc arrivee fuel s f c r hpop] at h
          by_cases hca : c = arrivee
          · rw [if_pos hca] at h
            cases h
          · rw [if_neg hca] at h
            exact ih _ (iteration_inv inv hpop hca) h n hatteint

/-- With fuel above the measure, the loop never runs out. -/
theorem boucle_fuel {g : Grille} {dl dc : Int → Option String}
    {depart arrivee : Pos} :
    ∀ (fuel : Nat) (s : EtatAstar),
      Inva g dl dc depart arrivee (fun _ => False) s →
      phiMesure g s < fuel →
      boucle g dl dc arrivee fuel s ≠ ResA.carburantEpuise := by
  intro fuel
  induction fuel with
  | zero =>
      intro s inv hphi
      exact absurd hphi (Nat.not_lt_zero _)
  | succ fuel ih =>
      intro s inv hphi
      cases hpop : heapPop s.ouverte with
      | none =>
          rw [boucle_succ_none g dl dc arrivee fuel s hpop]
          intro h
          cases h
      | some pr =>
          obtain ⟨⟨f, c⟩, r⟩ := pr
          rw [boucle_succ_some g dl dc arrivee fuel s f c r hpop]
          by_cases hca : c = arrivee
          · rw [if_pos hca]
            intro h
            cases h
          · rw [if_neg hca]
            refine ih _ (iteration_inv inv hpop hca) ?_
            have := iteration_phi inv hpop
            omega

/-! ### Endpoint behaviour of `trouver_chemin` -/

theorem tete_mem {α : Type} : ∀ {l : List α} {a : α}, l.head? = some a → a ∈ l := by
  intro l a h
  cases l with
  | nil => cases h
  | cons x xs =>
      injection h with h
      subst h
      exact List.mem_cons_self x xs

theorem dernier_mem {α : Type} : ∀ {l : List α} {a : α},
    l.getLast? = some a → a ∈ l := by
  intro l
  induction l with
  | nil => intro a h; cases h
  | cons x xs ih =>
      intro a h
      cases xs with
      | nil =>
          injection h with h
          subst h
          exact List.mem_cons_self x []
      | cons y ys =>
          rw [List.getLast?_cons_cons] at h
          exact List.mem_cons_of_mem x (ih h)

theorem trouver_chemin_hors (fuel : Nat) (g : Grille) (depart arrivee : Pos)
    (dl dc : Int → Option String)
    (h : ¬ (dansLimites g depart ∧ dansLimites g arrivee)) :
    trouver_chemin fuel g depart arrivee dl dc = none := by
  unfold trouver_chemin
  rw [if_pos h]

theorem trouver_chemin_pasroute (fuel : Nat) (g : Grille)
    (depart arrivee : Pos) (dl dc : Int → Option String)
    (h1 : dansLimites g depart ∧ dansLimites g arrivee)
    (h2 : lireCase g depart ≠ ROUTE ∨ lireCase g arrivee ≠ ROUTE) :
    trouver_chemin fuel g depart arrivee dl dc = none := by
  unfold trouver_chemin
  rw [if_neg (not_not_intro h1), if_pos h2]

theorem trouver_chemin_egal (fuel : Nat) (g : Grille) (depart arrivee : Pos)
    (dl dc : Int → Option String)
    (h1 : dansLimites g depart ∧ dansLimites g arrivee)
    (h2R : lireCase g depart = ROUTE) (h3R : lireCase g arrivee = ROUTE)
    (h4 : depart = arrivee) :
    trouver_chemin fuel g depart arrivee dl dc = some [depart] := by
  unfold trouver_chemin
  rw [if_neg (not_not_intro h1), if_neg (by push_neg; exact ⟨h2R, h3R⟩),
    if_pos h4]

theorem trouver_chemin_trouve_eq (fuel : Nat) (g : Grille)
    (depart arrivee : Pos) (dl dc : Int → Option String)
    (h1 : dansLimites g depart ∧ dansLimites g arrivee)
    (h2R : lireCase g depart = ROUTE) (h3R : lireCase g arrivee = ROUTE)
    (h4 : depart ≠ arrivee) {l0 : List Pos}
    (hres : boucle g dl dc arrivee fuel (etatInitial depart arrivee) =
      ResA.trouve l0) :
    trouver_chemin fuel g depart arrivee dl dc = some l0 := by
  unfold trouver_chemin
  rw [if_neg (not_not_intro h1), if_neg (by push_neg; exact ⟨h2R, h3R⟩),
    if_neg h4, hres]

theorem trouver_chemin_aucun_eq (fuel : Nat) (g : Grille)
    (depart arrivee : Pos) (dl dc : Int → Option String)
    (h1 : dansLimites g depart ∧ dansLimites g arrivee)
    (h2R : lireCase g depart = ROUTE) (h3R : lireCase g arrivee = ROUTE)
    (h4 : depart ≠ arrivee)
    (hres : boucle g dl dc arrivee fuel (etatInitial depart arrivee) =
      ResA.aucunChemin) :
    trouver_chemin fuel g depart arrivee dl dc = none := by
  unfold trouver_chemin
  rw [if_neg (not_not_intro h1), if_neg (by push_neg; exact ⟨h2R, h3R⟩),
    if_neg h4, hres]

theorem trouver_chemin_epuise_eq (fuel : Nat) (g : Grille)
    (depart arrivee : Pos) (dl dc : Int → Option String)
    (h1 : dansLimites g depart ∧ dansLimites g arrivee)
    (h2R : lireCase g depart = ROUTE) (h3R : lireCase g arrivee = ROUTE)
    (h4 : depart ≠ arrivee)
    (hres : boucle g dl dc arrivee fuel (etatInitial depart arrivee) =
      ResA.carburantEpuise) :
    trouver_chemin fuel g depart arrivee dl dc = none := by
  unfold trouver_chemin
  rw [if_neg (not_not_intro h1), if_neg (by push_neg; exact ⟨h2R, h3R⟩),
    if_neg h4, hres]

/-- Everything the `trouve` outcome of the loop guarantees about the returned
list. -/
theorem trouver_chemin_trouve_props {fuel : Nat} {g : Grille}
    {depart arrivee : Pos} {dl dc : Int → Option String} {l : List Pos}
    (h1 : dansLimites g depart) (h2R : lireCase g depart = ROUTE)
    (hres : boucle g dl dc arrivee fuel (etatInitial depart arrivee) =
      ResA.trouve l) :
    RouteSpecEntre g dl dc depart arrivee l ∧
      (∀ m, RouteSpecEntre g dl dc depart arrivee m → l.length ≤ m.length) ∧
      l.head? = some depart ∧ l.getLast? = some arrivee := by
  have inv : Inva g dl dc depart arrivee (fun _ => False)
      (etatInitial depart arrivee) := inva_init depart arrivee h1
  obtain ⟨v, l', hwalk, hopt, hchain, hlen, hlast, hl⟩ :=
    boucle_trouve fuel _ l inv hres
  subst hl
  have hdepR : CaseRoute g depart := ⟨h1, h2R⟩
  refine ⟨⟨⟨List.cons_ne_nil _ _, ?_, ?_⟩, rfl, hlast⟩, ?_, rfl, hlast⟩
  · intro p hp
    rcases List.mem_cons.mp hp with rfl | hp
    · exact hdepR
    · have hpr := chain_noeuds l' depart hchain p hp
      exact ⟨hpr.1, hpr.2⟩
  · show List.Chain (PasLegalSpec dl dc) depart l'
    exact chain_arete_paslegal hchain
  · intro m hm
    obtain ⟨hmw, hmlen⟩ := route_atteint hm
    have hvm := hopt (m.length - 1) hmw
    show (depart :: l').length ≤ m.length
    simp only [List.length_cons]
    omega

/-! ### C3 -/

/-- C3: planner completeness and optimality — with sufficient fuel,
`trouver_chemin` returns a path iff a route from `depart` to `arrivee` exists
consisting of orthogonal unit moves through Road cells, each allowed by the
row/column directional policy (diagonals never allowed); and any returned path
is itself such a route of minimal length among all routes, so its length minus
one equals the minimum number of legal unit moves. -/
theorem astar_complet_optimal (fuel : Nat) (g : Grille) (depart arrivee : Pos)
    (dl dc : Int → Option String) (hfuel : fuelSuffisant g ≤ fuel) :
    ((∃ l, trouver_chemin fuel g depart arrivee dl dc = some l) ↔
      ∃ m, RouteSpecEntre g dl dc depart arrivee m) ∧
    ∀ l, trouver_chemin fuel g depart arrivee dl dc = some l →
      RouteSpecEntre g dl dc depart arrivee l ∧
      ∀ m, RouteSpecEntre g dl dc depart arrivee m → l.length ≤ m.length := by
  have hsome : ∀ l, trouver_chemin fuel g depart arrivee dl dc = some l →
      RouteSpecEntre g dl dc depart arrivee l ∧
      ∀ m, RouteSpecEntre g dl dc depart arrivee m → l.length ≤ m.length := by
    intro l hl
    by_cases h1 : dansLimites g depart ∧ dansLimites g arrivee
    · by_cases h2 : lireCase g depart ≠ ROUTE ∨ lireCase g arrivee ≠ ROUTE
      · rw [trouver_chemin_pasroute fuel g depart arrivee dl dc h1 h2] at hl
        exact Option.noConfusion hl
      · push_neg at h2
        obtain ⟨h2R, h3R⟩ := h2
        by_cases h4 : depart = arrivee
        · rw [trouver_chemin_egal fuel g depart arrivee dl dc h1 h2R h3R h4]
            at hl
          injection hl with hl
          subst hl
          constructor
          · subst h4
            refine ⟨⟨List.cons_ne_nil _ _, ?_, ?_⟩, rfl, rfl⟩
            · intro p hp
              rw [List.mem_singleton] at hp
              subst hp
              exact ⟨h1.1, h2R⟩
            · show List.Chain (PasLegalSpec dl dc) depart []
              exact List.Chain.nil
          · intro m hm
            obtain ⟨-, hmlen⟩ := route_atteint hm
            show ([depart] : List Pos).length ≤ m.length
            rw [List.length_singleton]
            omega
        · cases hres : boucle g dl dc arrivee fuel (etatInitial depart arrivee)
            with
          | trouve l0 =>
              rw [trouver_chemin_trouve_eq fuel g depart arrivee dl dc h1 h2R
                h3R h4 hres] at hl
              injection hl with hl
              subst hl
              obtain ⟨hroute, hmin, -, -⟩ :=
                trouver_chemin_trouve_props h1.1 h2R hres
              exact ⟨hroute, hmin⟩
          | aucunChemin =>
              rw [trouver_chemin_aucun_eq fuel g depart arrivee dl dc h1 h2R
                h3R h4 hres] at hl
              exact Option.noConfusion hl
          | carburantEpuise =>
              rw [trouver_chemin_epuise_eq fuel g depart arrivee dl dc h1 h2R
                h3R h4 hres] at hl
              exact Option.noConfusion hl
    · rw [trouver_chemin_hors fuel g depart arrivee dl dc h1] at hl
      exact Option.noConfusion hl
  refine ⟨⟨fun he => ?_, ?_⟩, hsome⟩
  · obtain ⟨l, hl⟩ := he
    exact ⟨l, (hsome l hl).1⟩
  · rintro ⟨m, hm⟩
    have hdepR : CaseRoute g depart := by
      obtain ⟨⟨-, hcells, -⟩, hhead, -⟩ := hm
      exact hcells depart (tete_mem hhead)
    have harrR : CaseRoute g arrivee := by
      obtain ⟨⟨-, hcells, -⟩, -, hlast⟩ := hm
      exact hcells arrivee (dernier_mem hlast)
    have h1 : dansLimites g depart ∧ dansLimites g arrivee :=
      ⟨hdepR.1, harrR.1⟩
    by_cases h4 : depart = arrivee
    · exact ⟨[depart],
        trouver_chemin_egal fuel g depart arrivee dl dc h1 hdepR.2 harrR.2 h4⟩
    · obtain ⟨hmw, -⟩ := route_atteint hm
      cases hres : boucle g dl dc arrivee fuel (etatInitial depart arrivee)
        with
      | trouve l0 =>
          exact ⟨l0, trouver_chemin_trouve_eq fuel g depart arrivee dl dc h1
            hdepR.2 harrR.2 h4 hres⟩
      | aucunChemin =>
          exfalso
          have inv : Inva g dl dc depart arrivee (fun _ => False)
              (etatInitial depart arrivee) :=
            inva_init depart arrivee hdepR.1
          exact boucle_aucun fuel _ inv hres (m.length - 1) hmw
      | carburantEpuise =>
          exfalso
          have inv : Inva g dl dc depart arrivee (fun _ => False)
              (etatInitial depart arrivee) :=
            inva_init depart arrivee hdepR.1
          refine boucle_fuel fuel _ inv ?_ hres
          have hp := phi_init g depart arrivee
          omega

theorem astar_complet_optimal_temoin :
    fuelSuffisant grilleEssai ≤ 1302 ∧
    (((∃ l, trouver_chemin 1302 grilleEssai (0, 2) (2, 4) dlEssai dcEssai =
        some l) ↔
      ∃ m, RouteSpecEntre grilleEssai dlEssai dcEssai (0, 2) (2, 4) m) ∧
    ∀ l, trouver_chemin 1302 grilleEssai (0, 2) (2, 4) dlEssai dcEssai =
        some l →
      RouteSpecEntre grilleEssai dlEssai dcEssai (0, 2) (2, 4) l ∧
      ∀ m, RouteSpecEntre grilleEssai dlEssai dcEssai (0, 2) (2, 4) m →
        l.length ≤ m.length) :=
  ⟨by decide,
   astar_complet_optimal 1302 grilleEssai (0, 2) (2, 4) dlEssai dcEssai
     (by decide)⟩

/-! ### C9 -/

/-- C9: planner boundary behaviour — `trouver_chemin` returns `none` whenever
the start or the goal is out of bounds or its cell is not Road; when both
checks pass and start equals goal it returns the single-cell sequence; and
every returned sequence runs from the start to the goal inclusive (its head is
the start and its last element is the goal). -/
theorem planificateur_bords (fuel : Nat) (g : Grille) (depart arrivee : Pos)
    (dl dc : Int → Option String) :
    ((¬ (dansLimites g depart ∧ dansLimites g arrivee) ∨
        lireCase g depart ≠ ROUTE ∨ lireCase g arrivee ≠ ROUTE) →
      trouver_chemin fuel g depart arrivee dl dc = none) ∧
    ((dansLimites g depart ∧ dansLimites g arrivee) →
      lireCase g depart = ROUTE → lireCase g arrivee = ROUTE →
      depart = arrivee →
      trouver_chemin fuel g depart arrivee dl dc = some [depart]) ∧
    (∀ l, trouver_chemin fuel g depart arrivee dl dc = some l →
      l.head? = some depart ∧ l.getLast? = some arrivee) := by
  refine ⟨?_, ?_, ?_⟩
  · intro h
    by_cases h1 : dansLimites g depart ∧ dansLimites g arrivee
    · rcases h with h1' | h2
      · exact absurd h1 h1'
      · exact trouver_chemin_pasroute fuel g depart arrivee dl dc h1 h2
    · exact trouver_chemin_hors fuel g depart arrivee dl dc h1
  · intro h1 h2R h3R h4
    exact trouver_chemin_egal fuel g depart arrivee dl dc h1 h2R h3R h4
  · intro l hl
    by_cases h1 : dansLimites g depart ∧ dansLimites g arrivee
    · by_cases h2 : lireCase g depart ≠ ROUTE ∨ lireCase g arrivee ≠ ROUTE
      · rw [trouver_chemin_pasroute fuel g depart arrivee dl dc h1 h2] at hl
        exact Option.noConfusion hl
      · push_neg at h2
        obtain ⟨h2R, h3R⟩ := h2
        by_cases h4 : depart = arrivee
        · rw [trouver_chemin_egal fuel g depart arrivee dl dc h1 h2R h3R h4]
            at hl
          injection hl with hl
          subst hl
          exact ⟨rfl, by rw [← h4]; simp⟩
        · cases hres : boucle g dl dc arrivee fuel (etatInitial depart arrivee)
            with
          | trouve l0 =>
              rw [trouver_chemin_trouve_eq fuel g depart arrivee dl dc h1 h2R
                h3R h4 hres] at hl
              injection hl with hl
              subst hl
              obtain ⟨-, -, hhead, hlast⟩ :=
                trouver_chemin_trouve_props h1.1 h2R hres
              exact ⟨hhead, hlast⟩
          | aucunChemin =>
              rw [trouver_chemin_aucun_eq fuel g depart arrivee dl dc h1 h2R
                h3R h4 hres] at hl
              exact Option.noConfusion hl
          | carburantEpuise =>
              rw [trouver_chemin_epuise_eq fuel g depart arrivee dl dc h1 h2R
                h3R h4 hres] at hl
              exact Option.noConfusion hl
    · rw [trouver_chemin_hors fuel g depart arrivee dl dc h1] at hl
      exact Option.noConfusion hl

theorem planificateur_bords_temoin :
    ((¬ (dansLimites grilleEssai (0, 2) ∧ dansLimites grilleEssai (2, 4)) ∨
        lireCase grilleEssai (0, 2) ≠ ROUTE ∨
        lireCase grilleEssai (2, 4) ≠ ROUTE) →
      trouver_chemin 7 grilleEssai (0, 2) (2, 4) dlEssai dcEssai = none) ∧
    ((dansLimites grilleEssai (0, 2) ∧ dansLimites grilleEssai (2, 4)) →
      lireCase grilleEssai (0, 2) = ROUTE →
      lireCase grilleEssai (2, 4) = ROUTE →
      ((0 : Int), (2 : Int)) = ((2 : Int), (4 : Int)) →
      trouver_chemin 7 grilleEssai (0, 2) (2, 4) dlEssai dcEssai =
        some [(0, 2)]) ∧
    (∀ l, trouver_chemin 7 grilleEssai (0, 2) (2, 4) dlEssai dcEssai =
        some l →
      l.head? = some (0, 2) ∧ l.getLast? = some (2, 4)) :=
  planificateur_bords 7 grilleEssai (0, 2) (2, 4) dlEssai dcEssai

end Circulation
